import Mathlib

/-! rsyncbackup: generation rotation

A shallow embedding of `main.go` (`backupName`, `checkRsync`, `checkPath`, `run`) together with
the pieces of the Go runtime it calls (`fmt.Sprintf("%03d")`, `filepath.Base`, `filepath.Clean`,
`filepath.Join` in their Unix form as the Go documentation describes them, 64-bit `int`
arithmetic), and the properties of the rotation engine proved over it.

The Backup Root is modelled as the finite list of directories directly under it, keyed by the
path under which the program addresses them; the content of a directory, its whole subtree,
is a value of an arbitrary type `α`. Whether a removal or a rename fails, and what the rsync
process does, are parameters of the run.
-/

set_option autoImplicit false
set_option maxRecDepth 4000

namespace RsyncBackup

/-! ## Go runtime -/

/-- Largest value of a Go `int` (64 bits). -/
def maxInt : Int := 2 ^ 63 - 1

/-- Go `int` arithmetic: a result is reduced into the range `-2^63 .. 2^63-1`. -/
def wrapInt (x : Int) : Int := (x + 2 ^ 63) % 2 ^ 64 - 2 ^ 63

/-- The constant `os.PathSeparator` (Unix). -/
def pathSeparator : Char := '/'

/-- The decimal digit for a value below ten. -/
def digitChar : Nat → Char
  | 0 => '0' | 1 => '1' | 2 => '2' | 3 => '3' | 4 => '4'
  | 5 => '5' | 6 => '6' | 7 => '7' | 8 => '8' | _ => '9'

/-- Decimal digits of `n`, most significant first; the first argument bounds the recursion. -/
def decDigits : Nat → Nat → List Char
  | 0, _ => []
  | fuel + 1, n =>
    if n < 10 then [digitChar n] else decDigits fuel (n / 10) ++ [digitChar (n % 10)]

/-- Decimal representation of a natural number. -/
def itoa (n : Nat) : List Char := decDigits (n + 1) n

/-- The verb `%03d` of `fmt.Sprintf`: decimal, padded with zeros to a minimum width of three,
the sign counting towards the width. -/
def fmt03d (gen : Int) : List Char :=
  let ds := itoa gen.natAbs
  if gen < 0 then '-' :: (List.replicate (2 - ds.length) '0' ++ ds)
  else List.replicate (3 - ds.length) '0' ++ ds

/-- The test `os.IsPathSeparator` (Unix). -/
def isSep (c : Char) : Bool := c == '/'

/-- A path without its trailing separators. -/
def trimTrailingSeps (p : List Char) : List Char := (p.reverse.dropWhile isSep).reverse

/-- The characters after the last separator. -/
def lastElement (p : List Char) : List Char :=
  (p.reverse.takeWhile (fun c => !isSep c)).reverse

/-- The function `filepath.Base` on characters: the last element of the path, trailing
separators removed first; `.` for the empty path and `/` for a path of separators only. -/
def baseChars (path : List Char) : List Char :=
  if path = [] then ['.']
  else
    let e := lastElement (trimTrailingSeps path)
    if e = [] then ['/'] else e

/-- The elements of a path: the pieces between separators. -/
def splitSep : List Char → List (List Char)
  | [] => [[]]
  | c :: cs =>
    if isSep c then [] :: splitSep cs
    else
      match splitSep cs with
      | [] => [[c]]
      | w :: ws => (c :: w) :: ws

/-- One element processed by `filepath.Clean`; the stack holds the kept elements, last first.
Empty and `.` elements are dropped; `..` removes the element before it, is dropped at the root
and is kept where nothing is left to remove. -/
def cleanStep (rooted : Bool) (stack : List (List Char)) (e : List Char) : List (List Char) :=
  if e = [] ∨ e = ['.'] then stack
  else if e = ['.', '.'] then
    match stack with
    | top :: rest => if top = ['.', '.'] then e :: stack else rest
    | [] => if rooted then [] else [e]
  else e :: stack

/-- Elements joined by the separator. -/
def joinElems : List (List Char) → List Char
  | [] => []
  | [e] => e
  | e :: es => e ++ '/' :: joinElems es

/-- The function `filepath.Clean` on characters. -/
def cleanChars (path : List Char) : List Char :=
  if path = [] then ['.']
  else
    let rooted : Bool := path.head? == some '/'
    let stack := (splitSep path).foldl (cleanStep rooted) []
    let out := (if rooted then ['/'] else []) ++ joinElems stack.reverse
    if out = [] then ['.'] else out

/-- The function `filepath.Join` for two elements, on characters: empty elements are ignored,
the rest is joined by the separator and cleaned. -/
def joinChars (a b : List Char) : List Char :=
  if a ≠ [] then cleanChars (a ++ '/' :: b)
  else if b ≠ [] then cleanChars b
  else []

/-- The function `filepath.Base`. -/
def filepathBase (path : String) : String := String.mk (baseChars path.data)

/-- The function `filepath.Clean`. -/
def filepathClean (path : String) : String := String.mk (cleanChars path.data)

/-- The function `filepath.Join` for two elements. -/
def filepathJoin (a b : String) : String := String.mk (joinChars a.data b.data)

/-- The function `strings.HasSuffix` for a suffix of one character. -/
def hasSuffixChar (s : String) (c : Char) : Bool := s.data.getLast? == some c

/-! ## Filesystem -/

/-- The directories under the Backup Root: path and content. -/
abbrev FS (α : Type) := List (String × α)

/-- The directory a path names: trailing separators do not matter. -/
def resolve (path : String) : String := String.mk (trimTrailingSeps path.data)

/-- The content of the directory at `path`, if there is one. -/
def lookup {α : Type} (fs : FS α) (path : String) : Option α :=
  (fs.find? (fun e => e.1 == resolve path)).map Prod.snd

/-- The test `common.FileExists`. -/
def fileExists {α : Type} (fs : FS α) (path : String) : Bool :=
  fs.any (fun e => e.1 == resolve path)

/-- The effect of a successful `os.RemoveAll`: the directory and everything in it is gone. -/
def removeAll {α : Type} (fs : FS α) (path : String) : FS α :=
  fs.filter (fun e => e.1 != resolve path)

/-- The effect of a successful `os.Rename`: the directory moves with its content. -/
def moveDir {α : Type} (fs : FS α) (oldPath newPath : String) : FS α :=
  fs.map (fun e => if e.1 == resolve oldPath then (resolve newPath, e.2) else e)

/-! ## The program -/

/-- The command-line flags `-s`, `-d`, `-c`, `-n`. -/
structure Config where
  sourcePath : String
  destPath : String
  countGen : Int
  dry : Bool
  deriving DecidableEq

/-- What the program does to the outside world. -/
inductive Action where
  | remove (path : String)
  | move (oldPath newPath : String)
  | exec (rsyncPath : String) (args : List String)
  deriving DecidableEq

/-- A line written by `common.Info`. -/
inductive LogLine where
  | info (pfx : String) (act : Action)
  | blank
  | timeNeeded
  deriving DecidableEq

/-- The errors `run` returns. -/
inductive RunError where
  | rsyncMissing
  | fileNotFound (path : String)
  | removeFailed (path : String)
  | renameFailed (oldPath newPath : String)
  | renameOntoExisting (oldPath newPath : String)
  | syncFailed
  deriving DecidableEq

/-- The surroundings of a run: the lookup of the rsync executable, the directory test on the
source and destination paths, whether the operating system lets a call of `os.RemoveAll` or
of `os.Rename` fail (permissions, a read-only or full disk, ...), and the effect of the rsync
process on the Backup Root (`none` when it exits with an error). -/
structure Env (α : Type) where
  lookPath : Option String
  isDirectory : String → Bool
  removeFails : FS α → String → Bool
  renameFails : FS α → String → String → Bool
  sync : String → List String → FS α → Option (FS α)

/-- The Backup Root, the lines logged and the actions performed so far. -/
structure State (α : Type) where
  fs : FS α
  log : List LogLine
  ops : List Action

/-- The call `os.RemoveAll`: `none` when it returns an error. -/
def osRemoveAll {α : Type} (env : Env α) (fs : FS α) (path : String) : Option (FS α) :=
  if env.removeFails fs path then none else some (removeAll fs path)

/-- The call `os.Rename`. It returns an error when the operating system lets it fail or the
old path does not exist. A new path that exists is reported as an error of its own: the
system call replaces an empty directory and fails on a non-empty one. -/
def osRename {α : Type} (env : Env α) (fs : FS α) (oldPath newPath : String) :
    Except RunError (FS α) :=
  if env.renameFails fs oldPath newPath || !fileExists fs oldPath then
    .error (.renameFailed oldPath newPath)
  else if fileExists fs newPath then .error (.renameOntoExisting oldPath newPath)
  else .ok (moveDir fs oldPath newPath)

/-- The function `checkRsync`. -/
def checkRsync {α : Type} (env : Env α) : Except RunError String :=
  match env.lookPath with
  | none => .error .rsyncMissing
  | some p => .ok p

/-- The function `checkPath`. -/
def checkPath {α : Type} (env : Env α) (path : String) : Except RunError Unit :=
  if !env.isDirectory path then .error (.fileNotFound path) else .ok ()

/-- The function `backupName`, for the current value of the source flag. -/
def backupName (sourcePath : String) (gen : Int) : String :=
  filepathBase sourcePath ++ "-Backup-" ++ String.mk (fmt03d gen)

/-- Lines 67-73 of `run` for one flag: a path that ends in a separator loses its last
character. -/
def trimPath (path : String) : String :=
  if hasSuffixChar path pathSeparator || hasSuffixChar path '/' then String.mk path.data.dropLast
  else path

/-- The flags after lines 67-73 of `run`. -/
def normalize (cfg : Config) : Config :=
  { cfg with sourcePath := trimPath cfg.sourcePath, destPath := trimPath cfg.destPath }

/-- The path of generation `i`: `filepath.Join(*destPath, backupName(i))`. -/
def genPath (cfg : Config) (i : Int) : String :=
  filepathJoin cfg.destPath (backupName cfg.sourcePath i)

/-- The log prefix of lines 75-78. -/
def logTag (cfg : Config) : String := if cfg.dry then "Would " else ""

/-- The eviction loop, lines 83-99: from index `i` upwards, every existing generation is
removed, up to the first missing one; a removal that fails ends the loop with its error.
Returns the flag `b` and the state, or the error and the state it occurred in; the first
argument bounds the number of iterations, and the result is `none` when it is used up. -/
def evictLoop {α : Type} (env : Env α) (cfg : Config) :
    Nat → Int → Bool → State α → Option (Except (RunError × State α) (Bool × State α))
  | 0, _, _, _ => none
  | fuel + 1, i, b, st =>
    let path := genPath cfg i
    if !fileExists st.fs path then some (.ok (b, st))
    else
      let st1 : State α := { st with log := st.log ++ [.info (logTag cfg) (.remove path)] }
      if !cfg.dry then
        match osRemoveAll env st1.fs path with
        | none => some (.error (.removeFailed path, st1))
        | some fs2 =>
          evictLoop env cfg fuel (wrapInt (i + 1)) true
            { st1 with fs := fs2, ops := st1.ops ++ [.remove path] }
      else evictLoop env cfg fuel (wrapInt (i + 1)) true st1

/-- The shift loop, lines 107-125, for `i` from `k` down to 1: an existing generation `i`
is renamed to `i+1`; a rename that fails ends the loop with its error. -/
def shiftLoop {α : Type} (env : Env α) (cfg : Config) :
    Nat → Bool → State α → Except (RunError × State α) (Bool × State α)
  | 0, b, st => .ok (b, st)
  | k + 1, b, st =>
    let i : Int := ((k + 1 : Nat) : Int)
    let oldPath := genPath cfg i
    let newPath := genPath cfg (wrapInt (i + 1))
    if !fileExists st.fs oldPath then shiftLoop env cfg k b st
    else
      let st1 : State α :=
        { st with log := st.log ++ [.info (logTag cfg) (.move oldPath newPath)] }
      if !cfg.dry then
        match osRename env st1.fs oldPath newPath with
        | .error e => .error (e, st1)
        | .ok fs2 =>
          shiftLoop env cfg k true
            { st1 with fs := fs2, ops := st1.ops ++ [.move oldPath newPath] }
      else shiftLoop env cfg k true st1

/-- The blank line logged after a loop that did something. -/
def logBlankIf {α : Type} (b : Bool) (st : State α) : State α :=
  if b then { st with log := st.log ++ [.blank] } else st

/-- The argument list of the rsync call, lines 131-143. -/
def buildArgs {α : Type} (cfg : Config) (fs : FS α) : List String :=
  let link :=
    filepathJoin cfg.destPath (backupName cfg.sourcePath 2) ++ String.singleton pathSeparator
  let source := cfg.sourcePath ++ String.singleton pathSeparator
  let dest := filepathJoin cfg.destPath (backupName cfg.sourcePath 1)
  let args := ["--archive", "--verbose", "--safe-links", "--delete"]
  let args := if fileExists fs link then args ++ ["--link-dest=" ++ link] else args
  args ++ [source, dest]

/-- Lines 83-129 of `run`: the eviction pass and the shift pass. An error comes with the
state it occurred in. -/
def rotate {α : Type} (env : Env α) (cfg : Config) (fuel : Nat) (st : State α) :
    Option (Except (RunError × State α) (State α)) :=
  match evictLoop env cfg fuel cfg.countGen false st with
  | none => none
  | some (.error e) => some (.error e)
  | some (.ok (b1, st1)) =>
    match shiftLoop env cfg (wrapInt (cfg.countGen - 1)).toNat false (logBlankIf b1 st1) with
    | .error e => some (.error e)
    | .ok (b2, st2) => some (.ok (logBlankIf b2 st2))

/-- Lines 131-163 of `run`: the rsync call. -/
def invoke {α : Type} (env : Env α) (cfg : Config) (rsyncPath : String) (st : State α) :
    Except RunError (State α) :=
  let args := buildArgs cfg st.fs
  let st1 : State α :=
    { st with log := st.log ++ [.info (logTag cfg) (.exec rsyncPath args)] }
  if !cfg.dry then
    match env.sync rsyncPath args st1.fs with
    | none => .error .syncFailed
    | some fs2 =>
      .ok { fs := fs2, log := st1.log ++ [.blank, .timeNeeded],
            ops := st1.ops ++ [.exec rsyncPath args] }
  else .ok st1

/-- The function `run`. The loop of the eviction pass runs on `fuel`; the result is `none`
when the fuel does not suffice. -/
def run {α : Type} (env : Env α) (fuel : Nat) (flags : Config) (fs : FS α) :
    Option (Except RunError (State α)) :=
  match checkRsync env with
  | .error e => some (.error e)
  | .ok rsyncPath =>
    match checkPath env flags.sourcePath with
    | .error e => some (.error e)
    | .ok _ =>
      match checkPath env flags.destPath with
      | .error e => some (.error e)
      | .ok _ =>
        let cfg := normalize flags
        match rotate env cfg fuel { fs := fs, log := [], ops := [] } with
        | none => none
        | some (.error e) => some (.error e.1)
        | some (.ok st) => some (invoke env cfg rsyncPath st)

/-! ## Definitions used to state the properties -/

section specDefs

variable {α : Type}

/-- The value of a decimal digit character. -/
def digitVal (c : Char) : Nat := c.toNat - 48

/-- The number a string of decimal digits denotes. -/
def digitsVal (l : List Char) : Nat := l.foldl (fun a c => 10 * a + digitVal c) 0

/-- The decimal digit characters. -/
def isDigit (c : Char) : Prop := c ∈ ['0', '1', '2', '3', '4', '5', '6', '7', '8', '9']

/-- The digits after the sign of `%03d`. -/
def fmtBody (gen : Int) : List Char :=
  List.replicate ((if gen < 0 then 2 else 3) - (itoa gen.natAbs).length) '0' ++ itoa gen.natAbs

/-- Reads back what `%03d` prints. -/
def parseInt (l : List Char) : Int :=
  if '-' ∈ l then -(digitsVal (l.filter (fun c => c != '-')) : Int) else (digitsVal l : Int)

/-- A piece of a path without separator. -/
def SepFree (l : List Char) : Prop := ∀ c ∈ l, isSep c = false

/-- An element that `filepath.Clean` keeps as it is: no separator, and longer than `..`. -/
def Proper (e : List Char) : Prop := SepFree e ∧ 2 < e.length

/-- What `filepath.Clean` makes of the part of a path before its last separator, given
whether the path is rooted. -/
def cleanedFront (rooted : Bool) (a : List Char) : List Char :=
  let stack := (splitSep a).foldl (cleanStep rooted) []
  (if rooted then ['/'] else []) ++ (if stack = [] then [] else joinElems stack.reverse ++ ['/'])

/-- Whether a path that starts with `a` followed by a separator is rooted. -/
def rootedBefore (a : List Char) : Bool := (a ++ ['/']).head? == some '/'

/-- The fixed middle part of a generation name. -/
def backupMid : List Char := "-Backup-".data

/-- The paths of the generations `i`, `i+1`, ..., `i+n-1`. -/
def genPaths (cfg : Config) (i : Int) (n : Nat) : List String :=
  (List.range n).map (fun (k : Nat) => genPath cfg (i + (k : Int)))

/-- The state after the eviction pass has found the `n` generations from `i` on. -/
def evictResult (cfg : Config) (i : Int) (n : Nat) (st : State α) : State α :=
  { fs := if cfg.dry then st.fs else (genPaths cfg i n).foldl removeAll st.fs,
    log := st.log ++ (genPaths cfg i n).map (fun p => LogLine.info (logTag cfg) (.remove p)),
    ops := if cfg.dry then st.ops else st.ops ++ (genPaths cfg i n).map Action.remove }

/-- What a real shift pass over the indices `k`, ..., 1 leaves behind: generation `j` is now
generation `j+1`, generation 1 is gone, directories outside the moves are untouched, and no
entry is lost. -/
structure ShiftPost (cfg : Config) (k : Nat) (fs fs2 : FS α) : Prop where
  moved : ∀ j : Int, 1 ≤ j → j ≤ k → lookup fs2 (genPath cfg (j + 1)) = lookup fs (genPath cfg j)
  first : 1 ≤ k → lookup fs2 (genPath cfg 1) = none
  frame : ∀ q : String,
    (∀ j : Int, 1 ≤ j → j ≤ k → resolve q ≠ genPath cfg j ∧ resolve q ≠ genPath cfg (j + 1)) →
    lookup fs2 q = lookup fs q
  length_eq : fs2.length = fs.length

/-- What is known of a real shift pass over the indices `k`, ..., 1: no rename meets an
existing target; a pass that ends without error leaves `ShiftPost`; a pass in which the
operating system lets no rename fail ends without error. -/
structure ShiftOutcome (env : Env α) (cfg : Config) (k : Nat) (st : State α)
    (r : Except (RunError × State α) (Bool × State α)) : Prop where
  noClash : ∀ (oldPath newPath : String) (s : State α),
    r ≠ .error (.renameOntoExisting oldPath newPath, s)
  post : ∀ x : Bool × State α, r = .ok x → ShiftPost cfg k st.fs x.2.fs
  ok : (∀ fs p q, env.renameFails fs p q = false) → ∃ x, r = .ok x

/-- The argument list as the specification words it: the four options, the link reference
`<dest>/<base>-Backup-002/` when generation 2 exists, then `<source>/` and
`<dest>/<base>-Backup-001`, with `<base>` the last element of the source path. -/
def claimedArgs (sourcePath destPath : String) (gen2Exists : Bool) : List String :=
  ["--archive", "--verbose", "--safe-links", "--delete"]
    ++ (if gen2Exists
        then ["--link-dest=" ++ (destPath ++ "/" ++ filepathBase sourcePath ++ "-Backup-002/")]
        else [])
    ++ [sourcePath ++ "/", destPath ++ "/" ++ filepathBase sourcePath ++ "-Backup-001"]

/-- The rsync process succeeds and creates the directory named by its last argument; the
other directories stay. -/
def SyncCreates (env : Env α) : Prop :=
  ∀ (rsyncPath : String) (args : List String) (fs : FS α),
    ∃ fs2, env.sync rsyncPath args fs = some fs2 ∧
      ∀ q : String, fileExists fs2 q
        = (decide (resolve q = resolve (args.getLast?.getD "")) || fileExists fs q)

/-- The actions described by the lines of a log. -/
def loggedActions (log : List LogLine) : List Action :=
  log.filterMap (fun l => match l with
    | .info _ act => some act
    | _ => none)

/-- The state a rotation or a run ends in, when it ends without error. -/
def okState {α ε : Type} : Option (Except ε (State α)) → Option (State α)
  | some (.ok st) => some st
  | _ => none

/-- A Backup Root that holds the listed generations. -/
def genRoot {α : Type} (cfg : Config) (gens : List (Int × α)) : FS α :=
  gens.map (fun g => (genPath cfg g.1, g.2))

/-- An rsync that succeeds: its target, the last argument, becomes a directory with the
content `snapshot`. -/
def syncTo {α : Type} (snapshot : α) (_rsyncPath : String) (args : List String) (fs : FS α) :
    Option (FS α) :=
  some ((resolve (args.getLast?.getD ""), snapshot) :: removeAll fs (args.getLast?.getD ""))

/-- Surroundings in which rsync is installed, every path is a directory and rsync succeeds. -/
def sampleEnv : Env Nat :=
  { lookPath := some "/usr/bin/rsync", isDirectory := fun _ => true,
    removeFails := fun _ _ => false, renameFails := fun _ _ _ => false, sync := syncTo 0 }

/-- The sample surroundings, except that the directory at `path` cannot be removed. -/
def sampleEnvKeeping (path : String) : Env Nat :=
  { sampleEnv with removeFails := fun _ p => p == path }

/-- The state an eviction pass or a rotation stopped in, when it stopped with an error. -/
def errState {α β : Type} : Option (Except (RunError × State α) β) → Option (State α)
  | some (.error e) => some e.2
  | _ => none

/-- The state a pass ends in, when it ends without error. -/
def okPass {α : Type} :
    Option (Except (RunError × State α) (Bool × State α)) → Option (State α)
  | some (.ok x) => some x.2
  | _ => none

/-- Flags as given on the command line, with trailing separators. -/
def sampleFlags (countGen : Int) (dry : Bool) : Config :=
  Config.mk "/home/data/" "/mnt/backup/" countGen dry

/-- The sample flags as `run` normalizes them. -/
def sampleCfg (countGen : Int) (dry : Bool) : Config :=
  Config.mk "/home/data" "/mnt/backup" countGen dry

/-- The Backup Root of the sample runs: generations 1 to 4. -/
def sampleRoot : FS Nat := genRoot (sampleCfg 2 false) [(1, 11), (2, 12), (3, 13), (4, 14)]

/-- A Backup Root with generation 5, the generation of the largest `int` and the generation
of the smallest `int`. -/
def wrapRoot : FS Nat :=
  genRoot (sampleCfg maxInt false) [(5, 1), (maxInt, 2), (-maxInt - 1, 3)]

end specDefs

/-! # Properties -/

section properties

variable {α : Type}

/-! ## Decimal formatting -/

theorem digitChar_isDigit (n : Nat) : isDigit (digitChar n) := by
  unfold digitChar isDigit
  split <;> simp

theorem digitVal_digitChar {n : Nat} (h : n < 10) : digitVal (digitChar n) = n := by
  interval_cases n <;> rfl

theorem decDigits_isDigit (fuel n : Nat) : ∀ c ∈ decDigits fuel n, isDigit c := by
  induction fuel generalizing n with
  | zero => simp [decDigits]
  | succ f ih =>
    intro c hc
    unfold decDigits at hc
    split at hc
    · simp at hc; subst hc; exact digitChar_isDigit n
    · rcases List.mem_append.1 hc with h | h
      · exact ih _ c h
      · simp at h; subst h; exact digitChar_isDigit _

theorem digitsVal_append_singleton (l : List Char) (c : Char) :
    digitsVal (l ++ [c]) = 10 * digitsVal l + digitVal c := by
  simp [digitsVal, List.foldl_append]

theorem digitsVal_decDigits (fuel n : Nat) (h : n < fuel) : digitsVal (decDigits fuel n) = n := by
  induction fuel generalizing n with
  | zero => omega
  | succ f ih =>
    unfold decDigits
    split
    · rename_i h10
      simp [digitsVal, digitVal_digitChar h10]
    · rw [digitsVal_append_singleton, ih (n / 10) (by omega),
        digitVal_digitChar (Nat.mod_lt n (by decide))]
      omega

theorem decDigits_ne_nil (fuel n : Nat) : decDigits (fuel + 1) n ≠ [] := by
  unfold decDigits
  split <;> simp

theorem itoa_ne_nil (n : Nat) : itoa n ≠ [] := decDigits_ne_nil n n

theorem digitsVal_itoa (n : Nat) : digitsVal (itoa n) = n := digitsVal_decDigits _ _ (by omega)

theorem digitsVal_zeros (k : Nat) (l : List Char) :
    digitsVal (List.replicate k '0' ++ l) = digitsVal l := by
  induction k with
  | zero => simp
  | succ k ih =>
    have h0 : digitVal '0' = 0 := rfl
    simp only [digitsVal, List.replicate_succ, List.cons_append, List.foldl_cons, h0] at ih ⊢
    simpa using ih

theorem fmt03d_eq (gen : Int) :
    fmt03d gen = if gen < 0 then '-' :: fmtBody gen else fmtBody gen := by
  unfold fmt03d fmtBody
  split <;> simp_all

theorem fmtBody_isDigit (gen : Int) : ∀ c ∈ fmtBody gen, isDigit c := by
  intro c hc
  unfold fmtBody at hc
  rcases List.mem_append.1 hc with h | h
  · rw [List.mem_replicate] at h
    rw [h.2]; simp [isDigit]
  · exact decDigits_isDigit _ _ c h

theorem fmtBody_ne_nil (gen : Int) : fmtBody gen ≠ [] := by
  unfold fmtBody
  simp [itoa_ne_nil]

theorem digitsVal_fmtBody (gen : Int) : digitsVal (fmtBody gen) = gen.natAbs := by
  unfold fmtBody
  rw [digitsVal_zeros, digitsVal_itoa]

theorem isDigit_ne_minus {c : Char} (h : isDigit c) : c ≠ '-' := by
  intro hc; subst hc; simp [isDigit] at h

theorem isDigit_not_sep {c : Char} (h : isDigit c) : isSep c = false := by
  unfold isDigit at h
  simp only [List.mem_cons, List.mem_singleton, List.not_mem_nil, or_false] at h
  rcases h with h | h | h | h | h | h | h | h | h | h <;> subst h <;> rfl

theorem parseInt_fmt03d (gen : Int) : parseInt (fmt03d gen) = gen := by
  have hd := fmtBody_isDigit gen
  have hnm : '-' ∉ fmtBody gen := fun h => isDigit_ne_minus (hd _ h) rfl
  have hfil : (fmtBody gen).filter (fun c => c != '-') = fmtBody gen := by
    rw [List.filter_eq_self]
    intro c hc
    simpa using isDigit_ne_minus (hd c hc)
  rw [fmt03d_eq]
  by_cases hneg : gen < 0
  · rw [if_pos hneg]
    unfold parseInt
    rw [if_pos (List.mem_cons_self _ _), List.filter_cons_of_neg (by simp), hfil,
      digitsVal_fmtBody]
    omega
  · rw [if_neg hneg]
    unfold parseInt
    rw [if_neg hnm, digitsVal_fmtBody]
    omega

theorem fmt03d_injective : Function.Injective fmt03d :=
  Function.LeftInverse.injective parseInt_fmt03d

theorem fmt03d_ne_nil (gen : Int) : fmt03d gen ≠ [] := by
  rw [fmt03d_eq]
  split
  · simp
  · exact fmtBody_ne_nil gen

theorem fmt03d_not_sep (gen : Int) : ∀ c ∈ fmt03d gen, isSep c = false := by
  intro c hc
  rw [fmt03d_eq] at hc
  split at hc
  · rcases List.mem_cons.1 hc with h | h
    · subst h; rfl
    · exact isDigit_not_sep (fmtBody_isDigit gen c h)
  · exact isDigit_not_sep (fmtBody_isDigit gen c hc)

/-! ## Paths -/

theorem splitSep_ne_nil (l : List Char) : splitSep l ≠ [] := by
  cases l with
  | nil => simp [splitSep]
  | cons c cs =>
    unfold splitSep
    split
    · simp
    · split <;> simp

theorem splitSep_sepFree {e : List Char} (h : SepFree e) : splitSep e = [e] := by
  induction e with
  | nil => rfl
  | cons c cs ih =>
    have hc : isSep c = false := h c (List.mem_cons_self _ _)
    have hcs : SepFree cs := fun d hd => h d (List.mem_cons_of_mem _ hd)
    unfold splitSep
    rw [ih hcs]
    simp [hc]

theorem splitSep_append_sep (a b : List Char) :
    splitSep (a ++ '/' :: b) = splitSep a ++ splitSep b := by
  induction a with
  | nil =>
    show splitSep ('/' :: b) = splitSep [] ++ splitSep b
    rw [splitSep]
    simp [isSep, splitSep]
  | cons c cs ih =>
    rw [List.cons_append, splitSep, ih]
    by_cases hc : isSep c = true
    · rw [if_pos hc]
      conv_rhs => rw [splitSep, if_pos hc]
      rfl
    · rw [if_neg hc]
      conv_rhs => rw [splitSep, if_neg hc]
      obtain ⟨w, ws, hw⟩ := List.exists_cons_of_ne_nil (splitSep_ne_nil cs)
      rw [hw]
      rfl

theorem cleanStep_proper (rooted : Bool) (stack : List (List Char)) {e : List Char}
    (he : Proper e) : cleanStep rooted stack e = e :: stack := by
  have h1 : e ≠ [] := by intro h; have := he.2; simp [h] at this
  have h2 : e ≠ ['.'] := by intro h; have := he.2; simp [h] at this
  have h3 : e ≠ ['.', '.'] := by intro h; have := he.2; simp [h] at this
  unfold cleanStep
  rw [if_neg (by simp [h1, h2]), if_neg h3]

theorem cleanStep_nil (rooted : Bool) (stack : List (List Char)) :
    cleanStep rooted stack [] = stack := by
  simp [cleanStep]

theorem joinElems_snoc (xs : List (List Char)) (e : List Char) :
    joinElems (xs ++ [e]) = if xs = [] then e else joinElems xs ++ '/' :: e := by
  induction xs with
  | nil => rfl
  | cons x xs ih =>
    cases xs with
    | nil => simp [joinElems]
    | cons y ys =>
      rw [if_neg (by simp)] at ih ⊢
      show x ++ '/' :: joinElems ((y :: ys) ++ [e]) = (x ++ '/' :: joinElems (y :: ys)) ++ '/' :: e
      rw [ih]
      simp

theorem head_append_sep (a e : List Char) : (a ++ '/' :: e).head? = (a ++ ['/']).head? := by
  cases a <;> rfl

theorem cleanOut_snoc (r : Bool) (S : List (List Char)) {e : List Char} (he : e ≠ []) :
    (if (if r then ['/'] else []) ++ joinElems (S.reverse ++ [e]) = [] then ['.']
      else (if r then ['/'] else []) ++ joinElems (S.reverse ++ [e]))
    = ((if r then ['/'] else []) ++ (if S = [] then [] else joinElems S.reverse ++ ['/'])) ++ e := by
  rw [joinElems_snoc]
  by_cases hs : S = []
  · subst hs
    cases r <;> simp [he]
  · have hs2 : S.reverse ≠ [] := by simpa using hs
    rw [if_neg hs2, if_neg hs]
    cases r <;> simp

theorem cleanChars_sep_elem (a : List Char) {e : List Char} (he : Proper e) :
    cleanChars (a ++ '/' :: e) = cleanedFront (rootedBefore a) a ++ e := by
  have hne : a ++ '/' :: e ≠ [] := by simp
  have he1 : e ≠ [] := by intro h; have := he.2; simp [h] at this
  unfold cleanChars
  rw [if_neg hne]
  simp only [head_append_sep a e]
  rw [splitSep_append_sep, splitSep_sepFree he.1, List.foldl_append]
  simp only [List.foldl_cons, List.foldl_nil]
  rw [cleanStep_proper _ _ he, List.reverse_cons]
  exact cleanOut_snoc _ _ he1

theorem head_sepFree {e : List Char} (he : SepFree e) : (e.head? == some '/') = false := by
  cases e with
  | nil => rfl
  | cons c cs =>
    have hc : isSep c = false := he c (List.mem_cons_self _ _)
    simp only [List.head?_cons]
    unfold isSep at hc
    simpa using hc

theorem cleanChars_elem {e : List Char} (he : Proper e) : cleanChars e = e := by
  have he1 : e ≠ [] := by intro h; have := he.2; simp [h] at this
  unfold cleanChars
  rw [if_neg he1, splitSep_sepFree he.1]
  simp only [List.foldl_cons, List.foldl_nil]
  rw [cleanStep_proper _ _ he, head_sepFree he.1]
  simp [joinElems, he1]

theorem cleanOut_clean (r : Bool) (S : List (List Char)) {d : List Char}
    (h : (if (if r then ['/'] else []) ++ joinElems S.reverse = [] then ['.']
      else (if r then ['/'] else []) ++ joinElems S.reverse) = d)
    (hroot : d ≠ ['/']) (hdot : d ≠ ['.']) :
    (if r then ['/'] else []) ++ (if S = [] then [] else joinElems S.reverse ++ ['/'])
      = d ++ ['/'] := by
  by_cases hs : S = []
  · subst hs
    cases r
    · exact absurd (by simpa [joinElems] using h.symm) hdot
    · exact absurd (by simpa [joinElems] using h.symm) hroot
  · rw [if_neg hs]
    by_cases ho : (if r then ['/'] else []) ++ joinElems S.reverse = []
    · rw [if_pos ho] at h
      exact absurd h.symm hdot
    · rw [if_neg ho] at h
      rw [← h, List.append_assoc]

theorem cleanedFront_of_clean {d : List Char} (hclean : cleanChars d = d) (hroot : d ≠ ['/'])
    (hdot : d ≠ ['.']) : cleanedFront (rootedBefore d) d = d ++ ['/'] := by
  have hne : d ≠ [] := by
    intro h
    rw [h] at hclean
    simp [cleanChars] at hclean
  have hr : rootedBefore d = (d.head? == some '/') := by
    unfold rootedBefore
    cases d with
    | nil => exact absurd rfl hne
    | cons c cs => rfl
  unfold cleanChars at hclean
  rw [if_neg hne] at hclean
  unfold cleanedFront
  rw [hr]
  exact cleanOut_clean _ _ hclean hroot hdot

theorem baseChars_cases (p : List Char) :
    baseChars p = ['/'] ∨ (SepFree (baseChars p) ∧ baseChars p ≠ []) := by
  unfold baseChars
  by_cases hp : p = []
  · rw [if_pos hp]
    right
    refine ⟨?_, by simp⟩
    intro c hc
    simp at hc
    subst hc
    rfl
  · rw [if_neg hp]
    by_cases he : lastElement (trimTrailingSeps p) = []
    · left
      simp only [he, if_true]
    · right
      simp only [he, if_false]
      refine ⟨?_, he⟩
      intro c hc
      unfold lastElement at hc
      rw [List.mem_reverse] at hc
      have := List.mem_takeWhile_imp hc
      simpa using this

theorem backupName_data (src : String) (i : Int) :
    (backupName src i).data = baseChars src.data ++ (backupMid ++ fmt03d i) := by
  unfold backupName filepathBase backupMid
  simp [String.data_append]

theorem backupMid_sepFree : SepFree backupMid := by
  intro c hc
  simp only [backupMid, List.mem_cons, List.mem_singleton, List.not_mem_nil, or_false] at hc
  rcases hc with h | h | h | h | h | h | h | h <;> subst h <;> rfl

theorem proper_tail (i : Int) : Proper (backupMid ++ fmt03d i) := by
  constructor
  · intro c hc
    rcases List.mem_append.1 hc with h | h
    · exact backupMid_sepFree c h
    · exact fmt03d_not_sep i c h
  · simp [backupMid]

theorem proper_name {B : List Char} (hB : SepFree B) (i : Int) :
    Proper (B ++ (backupMid ++ fmt03d i)) := by
  constructor
  · intro c hc
    rcases List.mem_append.1 hc with h | h
    · exact hB c h
    · exact (proper_tail i).1 c h
  · have := (proper_tail i).2
    simp only [List.length_append] at this ⊢
    omega

/-- The path of a generation is a prefix fixed by the flags, followed by the index as
printed by `%03d`. -/
theorem genPath_data (cfg : Config) :
    ∃ P : List Char, ∀ i : Int, (genPath cfg i).data = P ++ fmt03d i := by
  rcases baseChars_cases cfg.sourcePath.data with hB | ⟨hB, _⟩
  · by_cases hd : cfg.destPath.data = []
    · refine ⟨cleanedFront (rootedBefore []) [] ++ backupMid, fun i => ?_⟩
      unfold genPath filepathJoin joinChars
      rw [backupName_data, hB, hd]
      simp only [ne_eq, not_true_eq_false, if_false]
      rw [if_pos (by simp)]
      have := cleanChars_sep_elem [] (proper_tail i)
      simp only [List.nil_append] at this
      simp only [List.singleton_append]
      rw [this, List.append_assoc]
    · refine ⟨cleanedFront (rootedBefore (cfg.destPath.data ++ ['/'])) (cfg.destPath.data ++ ['/'])
        ++ backupMid, fun i => ?_⟩
      unfold genPath filepathJoin joinChars
      rw [backupName_data, hB, if_pos hd]
      have := cleanChars_sep_elem (cfg.destPath.data ++ ['/']) (proper_tail i)
      simp only [List.append_assoc, List.singleton_append] at this ⊢
      rw [this]
  · by_cases hd : cfg.destPath.data = []
    · refine ⟨baseChars cfg.sourcePath.data ++ backupMid, fun i => ?_⟩
      unfold genPath filepathJoin joinChars
      rw [backupName_data, hd]
      simp only [ne_eq, not_true_eq_false, if_false]
      rw [if_pos (by simp [backupMid]), cleanChars_elem (proper_name hB i), List.append_assoc]
    · refine ⟨cleanedFront (rootedBefore cfg.destPath.data) cfg.destPath.data
        ++ (baseChars cfg.sourcePath.data ++ backupMid), fun i => ?_⟩
      unfold genPath filepathJoin joinChars
      rw [backupName_data, if_pos hd, cleanChars_sep_elem _ (proper_name hB i)]
      simp only [List.append_assoc]

theorem genPath_injective (cfg : Config) : Function.Injective (genPath cfg) := by
  obtain ⟨P, hP⟩ := genPath_data cfg
  intro i j h
  have h2 : (genPath cfg i).data = (genPath cfg j).data := by rw [h]
  rw [hP, hP] at h2
  exact fmt03d_injective (List.append_cancel_left h2)

theorem trimTrailingSeps_snoc (l : List Char) {c : Char} (hc : isSep c = false) :
    trimTrailingSeps (l ++ [c]) = l ++ [c] := by
  unfold trimTrailingSeps
  rw [List.reverse_append, List.reverse_singleton, List.singleton_append,
    List.dropWhile_cons_of_neg (by simp [hc])]
  simp

theorem trimTrailingSeps_snoc_sep (l : List Char) {c : Char} (hc : isSep c = false) :
    trimTrailingSeps ((l ++ [c]) ++ ['/']) = l ++ [c] := by
  unfold trimTrailingSeps
  rw [List.reverse_append, List.reverse_singleton, List.singleton_append,
    List.dropWhile_cons_of_pos (by rfl)]
  exact trimTrailingSeps_snoc l hc

theorem genPath_snoc (cfg : Config) (i : Int) :
    ∃ (l : List Char) (c : Char), isSep c = false ∧ (genPath cfg i).data = l ++ [c] := by
  obtain ⟨P, hP⟩ := genPath_data cfg
  have hne := fmt03d_ne_nil i
  refine ⟨P ++ (fmt03d i).dropLast, (fmt03d i).getLast hne, ?_, ?_⟩
  · exact fmt03d_not_sep i _ (List.getLast_mem hne)
  · rw [hP, List.append_assoc, List.dropLast_append_getLast]

theorem resolve_genPath (cfg : Config) (i : Int) : resolve (genPath cfg i) = genPath cfg i := by
  obtain ⟨l, c, hc, h⟩ := genPath_snoc cfg i
  unfold resolve
  rw [h, trimTrailingSeps_snoc l hc, ← h]

theorem resolve_genPath_sep (cfg : Config) (i : Int) :
    resolve (genPath cfg i ++ String.singleton pathSeparator) = genPath cfg i := by
  obtain ⟨l, c, hc, h⟩ := genPath_snoc cfg i
  unfold resolve
  have : (genPath cfg i ++ String.singleton pathSeparator).data = (l ++ [c]) ++ ['/'] := by
    rw [String.data_append, h]
    rfl
  rw [this, trimTrailingSeps_snoc_sep l hc, ← h]

/-! ## Filesystem operations -/

theorem fileExists_eq_isSome (fs : FS α) (p : String) :
    fileExists fs p = (lookup fs p).isSome := by
  unfold fileExists lookup
  induction fs with
  | nil => rfl
  | cons e es ih =>
    by_cases h : (e.1 == resolve p) = true
    · simp [List.find?_cons, h]
    · simp only [Bool.not_eq_true] at h
      simp only [List.any_cons, h, Bool.false_or, List.find?_cons]
      exact ih

theorem fileExists_false_iff (fs : FS α) (p : String) :
    fileExists fs p = false ↔ lookup fs p = none := by
  rw [fileExists_eq_isSome]
  cases lookup fs p <;> simp

theorem lookup_congr (fs : FS α) {p q : String} (h : resolve p = resolve q) :
    lookup fs p = lookup fs q := by
  unfold lookup
  rw [h]

theorem fileExists_congr (fs : FS α) {p q : String} (h : resolve p = resolve q) :
    fileExists fs p = fileExists fs q := by
  unfold fileExists
  rw [h]

theorem lookup_removeAll (fs : FS α) (p q : String) :
    lookup (removeAll fs p) q = if resolve q = resolve p then none else lookup fs q := by
  unfold lookup removeAll
  induction fs with
  | nil => simp
  | cons e es ih =>
    by_cases hq : resolve q = resolve p
    · rw [if_pos hq] at ih ⊢
      by_cases he : e.1 = resolve p
      · rw [List.filter_cons_of_neg (by simp [he])]
        exact ih
      · rw [List.filter_cons_of_pos (by simp [he]), List.find?_cons_of_neg _ (by simp [hq, he])]
        exact ih
    · rw [if_neg hq] at ih ⊢
      by_cases he : e.1 = resolve p
      · rw [List.filter_cons_of_neg (by simp [he]), ih,
          List.find?_cons_of_neg _ (by simp [he]; exact fun h => hq h.symm)]
      · rw [List.filter_cons_of_pos (by simp [he])]
        by_cases heq : e.1 = resolve q
        · rw [List.find?_cons_of_pos _ (by simp [heq]), List.find?_cons_of_pos _ (by simp [heq])]
        · rw [List.find?_cons_of_neg _ (by simp [heq]), List.find?_cons_of_neg _ (by simp [heq])]
          exact ih

theorem length_removeAll_le (fs : FS α) (p : String) : (removeAll fs p).length ≤ fs.length :=
  List.length_filter_le _ _

theorem length_removeAll_lt (fs : FS α) (p : String) (h : fileExists fs p = true) :
    (removeAll fs p).length < fs.length := by
  unfold fileExists at h
  unfold removeAll
  induction fs with
  | nil => simp at h
  | cons e es ih =>
    by_cases he : e.1 = resolve p
    · rw [List.filter_cons_of_neg (by simp [he])]
      exact Nat.lt_succ_of_le (List.length_filter_le _ _)
    · rw [List.filter_cons_of_pos (by simp [he])]
      simp only [List.any_cons, Bool.or_eq_true] at h
      rcases h with h | h
      · exact absurd (by simpa using h) he
      · simp only [List.length_cons]
        exact Nat.succ_lt_succ (ih h)

theorem lookup_map_rename (fs : FS α) (ro rn : String) (q : String)
    (hnew : ∀ e ∈ fs, e.1 ≠ rn) :
    ((fs.map (fun e => if e.1 == ro then (rn, e.2) else e)).find?
        (fun e => e.1 == resolve q)).map Prod.snd
      = if resolve q = rn then (fs.find? (fun e => e.1 == ro)).map Prod.snd
        else if resolve q = ro then none
        else (fs.find? (fun e => e.1 == resolve q)).map Prod.snd := by
  induction fs with
  | nil => simp
  | cons e es ih =>
    have ih := ih (fun x hx => hnew x (List.mem_cons_of_mem _ hx))
    have he_new : e.1 ≠ rn := hnew e (List.mem_cons_self _ _)
    rw [List.map_cons]
    by_cases he : e.1 = ro
    · have hb : (e.1 == ro) = true := by simp [he]
      simp only [hb, if_true]
      by_cases hq : resolve q = rn
      · rw [if_pos hq, List.find?_cons_of_pos _ (by simp [hq]),
          List.find?_cons_of_pos _ (by simp [he])]
        rfl
      · rw [if_neg hq, List.find?_cons_of_neg _ (by simp; exact fun h => hq h.symm)]
        rw [if_neg hq] at ih
        rw [ih]
        by_cases hq2 : resolve q = ro
        · rw [if_pos hq2, if_pos hq2]
        · rw [if_neg hq2, if_neg hq2,
            List.find?_cons_of_neg _ (by simp [he]; exact fun h => hq2 h.symm)]
    · have hb : (e.1 == ro) = false := by simp [he]
      simp only [hb]
      by_cases hq : resolve q = rn
      · rw [if_pos hq, List.find?_cons_of_neg _ (by simp [hq, he_new]),
          List.find?_cons_of_neg _ (by simp [he])]
        rw [if_pos hq] at ih
        exact ih
      · rw [if_neg hq]
        rw [if_neg hq] at ih
        by_cases hq2 : resolve q = ro
        · rw [if_pos hq2, List.find?_cons_of_neg _ (by simp [hq2, he])]
          rw [if_pos hq2] at ih
          exact ih
        · rw [if_neg hq2]
          rw [if_neg hq2] at ih
          by_cases heq : e.1 = resolve q
          · rw [List.find?_cons_of_pos _ (by simp [heq]),
              List.find?_cons_of_pos _ (by simp [heq])]
            simp
          · rw [List.find?_cons_of_neg _ (by simp [heq]),
              List.find?_cons_of_neg _ (by simp [heq])]
            exact ih

theorem lookup_moveDir (fs : FS α) (oldPath newPath : String)
    (hnew : fileExists fs newPath = false) (q : String) :
    lookup (moveDir fs oldPath newPath) q
      = if resolve q = resolve newPath then lookup fs oldPath
        else if resolve q = resolve oldPath then none else lookup fs q := by
  have hmem : ∀ e ∈ fs, e.1 ≠ resolve newPath := by
    intro e he h
    unfold fileExists at hnew
    rw [List.any_eq_false] at hnew
    exact hnew e he (by simp [h])
  exact lookup_map_rename fs _ _ q hmem

theorem length_moveDir (fs : FS α) (oldPath newPath : String) :
    (moveDir fs oldPath newPath).length = fs.length := by
  simp [moveDir]

theorem osRename_eq (env : Env α) (fs : FS α) (oldPath newPath : String)
    (hold : fileExists fs oldPath = true) (hnew : fileExists fs newPath = false) :
    osRename env fs oldPath newPath
      = if env.renameFails fs oldPath newPath then .error (.renameFailed oldPath newPath)
        else .ok (moveDir fs oldPath newPath) := by
  unfold osRename
  rw [hold, hnew]
  cases env.renameFails fs oldPath newPath <;> rfl

/-! ## The eviction pass -/

theorem wrapInt_of_range {x : Int} (h1 : -2 ^ 63 ≤ x) (h2 : x ≤ maxInt) : wrapInt x = x := by
  unfold maxInt at h2
  unfold wrapInt
  omega

theorem lookup_removeAll_gen (cfg : Config) (fs : FS α) (i : Int) (q : String) :
    lookup (removeAll fs (genPath cfg i)) q
      = if resolve q = genPath cfg i then none else lookup fs q := by
  rw [lookup_removeAll, resolve_genPath]

theorem fileExists_removeAll_gen (cfg : Config) (fs : FS α) (i j : Int) :
    fileExists (removeAll fs (genPath cfg i)) (genPath cfg j)
      = if j = i then false else fileExists fs (genPath cfg j) := by
  rw [fileExists_eq_isSome, fileExists_eq_isSome, lookup_removeAll_gen, resolve_genPath]
  by_cases h : j = i
  · subst h; simp
  · rw [if_neg h, if_neg (fun hp => h (genPath_injective cfg hp))]

theorem genPaths_zero (cfg : Config) (i : Int) : genPaths cfg i 0 = [] := rfl

theorem genPaths_succ (cfg : Config) (i : Int) (n : Nat) :
    genPaths cfg i (n + 1) = genPath cfg i :: genPaths cfg (i + 1) n := by
  unfold genPaths
  rw [List.range_succ_eq_map, List.map_cons, List.map_map]
  simp only [Nat.cast_zero, add_zero, List.cons.injEq, true_and]
  apply List.map_congr_left
  intro k _
  simp only [Function.comp, Nat.succ_eq_add_one, Nat.cast_add, Nat.cast_one]
  congr 1
  omega

theorem mem_genPaths (cfg : Config) (i : Int) (n : Nat) (p : String) :
    p ∈ genPaths cfg i n ↔ ∃ j : Int, i ≤ j ∧ j < i + n ∧ p = genPath cfg j := by
  unfold genPaths
  simp only [List.mem_map, List.mem_range]
  constructor
  · rintro ⟨k, hk, rfl⟩
    exact ⟨i + k, by omega, by omega, rfl⟩
  · rintro ⟨j, h1, h2, rfl⟩
    refine ⟨(j - i).toNat, by omega, ?_⟩
    congr 1
    omega

theorem evictResult_zero (cfg : Config) (i : Int) (st : State α) : evictResult cfg i 0 st = st := by
  cases st
  simp [evictResult, genPaths_zero]

theorem evictResult_succ (cfg : Config) (i : Int) (n : Nat) (st : State α) :
    evictResult cfg i (n + 1) st
      = evictResult cfg (i + 1) n
          (if cfg.dry then
            { st with log := st.log ++ [LogLine.info (logTag cfg) (.remove (genPath cfg i))] }
          else
            { fs := removeAll st.fs (genPath cfg i),
              log := st.log ++ [LogLine.info (logTag cfg) (.remove (genPath cfg i))],
              ops := st.ops ++ [Action.remove (genPath cfg i)] }) := by
  unfold evictResult
  rw [genPaths_succ]
  cases hd : cfg.dry <;> simp [hd]

/-- One iteration of the eviction loop at an existing generation. -/
theorem evictLoop_step (env : Env α) (cfg : Config) (fuel : Nat) (i : Int) (b : Bool)
    (st : State α) (h0 : fileExists st.fs (genPath cfg i) = true) :
    evictLoop env cfg (fuel + 1) i b st
      = if cfg.dry then
          evictLoop env cfg fuel (wrapInt (i + 1)) true
            { st with log := st.log ++ [LogLine.info (logTag cfg) (.remove (genPath cfg i))] }
        else if env.removeFails st.fs (genPath cfg i) then
          some (.error (.removeFailed (genPath cfg i),
            { st with log := st.log ++ [LogLine.info (logTag cfg) (.remove (genPath cfg i))] }))
        else
          evictLoop env cfg fuel (wrapInt (i + 1)) true
            { fs := removeAll st.fs (genPath cfg i),
              log := st.log ++ [LogLine.info (logTag cfg) (.remove (genPath cfg i))],
              ops := st.ops ++ [Action.remove (genPath cfg i)] } := by
  conv_lhs => unfold evictLoop
  simp only [h0, Bool.not_true, Bool.false_eq_true, if_false, osRemoveAll]
  cases cfg.dry
  · cases env.removeFails st.fs (genPath cfg i) <;> rfl
  · rfl

/-- The eviction loop at a missing generation. -/
theorem evictLoop_stop (env : Env α) (cfg : Config) (fuel : Nat) (i : Int) (b : Bool)
    (st : State α) (h0 : fileExists st.fs (genPath cfg i) = false) :
    evictLoop env cfg (fuel + 1) i b st = some (.ok (b, st)) := by
  unfold evictLoop
  simp [h0]

/-- The state an eviction pass ends in when it ends without error, given the `n` generations
from `i` on and the first missing one. -/
theorem evictLoop_spec (env : Env α) (cfg : Config) (n : Nat) :
    ∀ (fuel : Nat) (i : Int) (b : Bool) (st : State α) (x : Bool × State α), -2 ^ 63 ≤ i →
      i + n ≤ maxInt → (∀ k : Nat, k < n → fileExists st.fs (genPath cfg (i + k)) = true) →
      fileExists st.fs (genPath cfg (i + n)) = false →
      evictLoop env cfg fuel i b st = some (.ok x) →
      x = (b || decide (0 < n), evictResult cfg i n st) := by
  induction n with
  | zero =>
    intro fuel i b st x _ _ _ hgap h
    cases fuel with
    | zero => simp [evictLoop] at h
    | succ f =>
      simp only [Nat.cast_zero, add_zero] at hgap
      rw [evictLoop_stop env cfg f i b st hgap] at h
      simp only [Option.some.injEq, Except.ok.injEq] at h
      rw [← h, evictResult_zero]
      simp
  | succ n ih =>
    intro fuel i b st x hlo hhi hex hgap h
    cases fuel with
    | zero => simp [evictLoop] at h
    | succ f =>
      have h0 : fileExists st.fs (genPath cfg i) = true := by
        have := hex 0 (by omega)
        simpa using this
      have hw : wrapInt (i + 1) = i + 1 :=
        wrapInt_of_range (by omega) (by push_cast at hhi; omega)
      have e1 : ∀ k : Nat, i + ((k + 1 : Nat) : Int) = i + 1 + (k : Int) := by
        intro k; push_cast; omega
      rw [evictLoop_step env cfg f i b st h0, hw] at h
      rw [evictResult_succ]
      cases hd : cfg.dry
      · simp only [hd, Bool.false_eq_true, if_false] at h ⊢
        cases hrm : env.removeFails st.fs (genPath cfg i)
        · simp only [hrm, Bool.false_eq_true, if_false] at h
          rw [ih f (i + 1) true _ x (by omega) (by push_cast at hhi; omega) ?_ ?_ h]
          · simp
          · intro k hk
            have h1 := hex (k + 1) (by omega)
            rw [e1] at h1
            show fileExists (removeAll st.fs (genPath cfg i)) _ = true
            rw [fileExists_removeAll_gen, if_neg (by omega)]
            exact h1
          · rw [e1] at hgap
            show fileExists (removeAll st.fs (genPath cfg i)) _ = false
            rw [fileExists_removeAll_gen, if_neg (by omega)]
            exact hgap
        · simp [hrm] at h
      · simp only [hd, if_true] at h ⊢
        rw [ih f (i + 1) true _ x (by omega) (by push_cast at hhi; omega) ?_ ?_ h]
        · simp
        · intro k hk
          have h1 := hex (k + 1) (by omega)
          rw [e1] at h1
          exact h1
        · rw [e1] at hgap
          exact hgap

/-- Generations at consecutive indices are different directories: there are at most as
many as the Backup Root has entries. -/
theorem consecutive_le_length (cfg : Config) (n : Nat) :
    ∀ (fs : FS α) (i : Int),
      (∀ k : Nat, k < n → fileExists fs (genPath cfg (i + k)) = true) → n ≤ fs.length := by
  induction n with
  | zero => intro fs i _; exact Nat.zero_le _
  | succ n ih =>
    intro fs i hex
    have h0 : fileExists fs (genPath cfg i) = true := by simpa using hex 0 (by omega)
    have hlt := length_removeAll_lt fs _ h0
    have := ih (removeAll fs (genPath cfg i)) (i + 1) (by
      intro k hk
      have h1 := hex (k + 1) (by omega)
      have e : i + ((k + 1 : Nat) : Int) = i + 1 + (k : Int) := by push_cast; omega
      rw [e] at h1
      rw [fileExists_removeAll_gen, if_neg (by omega)]
      exact h1)
    omega

/-- The first missing generation at or above `i`, when there is a missing one up to `m`. -/
theorem exists_first_gap (cfg : Config) (fs : FS α) (i m : Int) (him : i ≤ m)
    (hm : fileExists fs (genPath cfg m) = false) :
    ∃ n : Nat, i + n ≤ m ∧ (∀ k : Nat, k < n → fileExists fs (genPath cfg (i + k)) = true) ∧
      fileExists fs (genPath cfg (i + n)) = false := by
  have hex : ∃ n : Nat, fileExists fs (genPath cfg (i + n)) = false := by
    refine ⟨(m - i).toNat, ?_⟩
    have e : i + ((m - i).toNat : Int) = m := by omega
    rw [e]
    exact hm
  classical
  refine ⟨Nat.find hex, ?_, ?_, Nat.find_spec hex⟩
  · have hle : Nat.find hex ≤ (m - i).toNat := Nat.find_min' hex (by
      have e : i + ((m - i).toNat : Int) = m := by omega
      rw [e]
      exact hm)
    omega
  · intro k hk
    have := Nat.find_min hex hk
    simpa using this

theorem lookup_foldl_removeAll (ps : List String) :
    ∀ (fs : FS α) (q : String), (∀ p ∈ ps, resolve p = p) →
      lookup (ps.foldl removeAll fs) q = if resolve q ∈ ps then none else lookup fs q := by
  induction ps with
  | nil => intro fs q _; simp
  | cons p ps ih =>
    intro fs q hres
    rw [List.foldl_cons, ih _ _ (fun x hx => hres x (List.mem_cons_of_mem _ hx)),
      lookup_removeAll, hres p (List.mem_cons_self _ _)]
    by_cases h1 : resolve q ∈ ps
    · simp [h1]
    · by_cases h2 : resolve q = p
      · simp [h2]
      · simp [h1, h2]

theorem lookup_evicted (cfg : Config) (fs : FS α) (i : Int) (n : Nat) (q : String) :
    lookup ((genPaths cfg i n).foldl removeAll fs) q
      = if resolve q ∈ genPaths cfg i n then none else lookup fs q := by
  apply lookup_foldl_removeAll
  intro p hp
  obtain ⟨j, _, _, rfl⟩ := (mem_genPaths cfg i n p).1 hp
  exact resolve_genPath cfg j

/-- A real eviction pass ends, with a state or with the error of a removal. -/
theorem evictLoop_total (env : Env α) (cfg : Config) (hdry : cfg.dry = false) :
    ∀ (fuel : Nat) (i : Int) (b : Bool) (st : State α), st.fs.length < fuel →
      ∃ r, evictLoop env cfg fuel i b st = some r := by
  intro fuel
  induction fuel with
  | zero => intro i b st h; omega
  | succ f ih =>
    intro i b st h
    by_cases hex : fileExists st.fs (genPath cfg i) = true
    · rw [evictLoop_step env cfg f i b st hex]
      simp only [hdry, Bool.false_eq_true, if_false]
      cases env.removeFails st.fs (genPath cfg i)
      · simp only [Bool.false_eq_true, if_false]
        apply ih
        have := length_removeAll_lt st.fs _ hex
        simp only
        omega
      · exact ⟨_, rfl⟩
    · simp only [Bool.not_eq_true] at hex
      exact ⟨_, evictLoop_stop env cfg f i b st hex⟩

/-- A real eviction pass in which no removal fails ends with a state. -/
theorem evictLoop_total_ok (env : Env α) (cfg : Config) (hdry : cfg.dry = false)
    (hrm : ∀ fs p, env.removeFails fs p = false) :
    ∀ (fuel : Nat) (i : Int) (b : Bool) (st : State α), st.fs.length < fuel →
      ∃ x, evictLoop env cfg fuel i b st = some (.ok x) := by
  intro fuel
  induction fuel with
  | zero => intro i b st h; omega
  | succ f ih =>
    intro i b st h
    by_cases hex : fileExists st.fs (genPath cfg i) = true
    · rw [evictLoop_step env cfg f i b st hex]
      simp only [hdry, Bool.false_eq_true, if_false, hrm]
      apply ih
      have := length_removeAll_lt st.fs _ hex
      simp only
      omega
    · simp only [Bool.not_eq_true] at hex
      exact ⟨_, evictLoop_stop env cfg f i b st hex⟩

/-- The eviction pass creates nothing. -/
theorem evictLoop_mono (env : Env α) (cfg : Config) :
    ∀ (fuel : Nat) (i : Int) (b : Bool) (st : State α) (x : Bool × State α),
      evictLoop env cfg fuel i b st = some (.ok x) →
      ∀ q, lookup st.fs q = none → lookup x.2.fs q = none := by
  intro fuel
  induction fuel with
  | zero => intro i b st x h; simp [evictLoop] at h
  | succ f ih =>
    intro i b st x h q hq
    by_cases hex : fileExists st.fs (genPath cfg i) = true
    · rw [evictLoop_step env cfg f i b st hex] at h
      cases hd : cfg.dry
      · simp only [hd, Bool.false_eq_true, if_false] at h
        cases hrm : env.removeFails st.fs (genPath cfg i)
        · simp only [hrm, Bool.false_eq_true, if_false] at h
          refine ih _ _ _ x h q ?_
          show lookup (removeAll st.fs (genPath cfg i)) q = none
          rw [lookup_removeAll, hq]
          simp
        · simp [hrm] at h
      · simp only [hd, if_true] at h
        exact ih _ _ _ x h q hq
    · simp only [Bool.not_eq_true] at hex
      rw [evictLoop_stop env cfg f i b st hex] at h
      simp only [Option.some.injEq, Except.ok.injEq] at h
      subst h
      exact hq

/-- After a real eviction pass that ended without error the generation it started at does
not exist. -/
theorem evictLoop_absent (env : Env α) (cfg : Config) (hdry : cfg.dry = false) (fuel : Nat)
    (i : Int) (b : Bool) (st : State α) (x : Bool × State α)
    (h : evictLoop env cfg fuel i b st = some (.ok x)) :
    fileExists x.2.fs (genPath cfg i) = false := by
  cases fuel with
  | zero => simp [evictLoop] at h
  | succ f =>
    by_cases hex : fileExists st.fs (genPath cfg i) = true
    · rw [evictLoop_step env cfg f i b st hex] at h
      simp only [hdry, Bool.false_eq_true, if_false] at h
      cases hrm : env.removeFails st.fs (genPath cfg i)
      · simp only [hrm, Bool.false_eq_true, if_false] at h
        rw [fileExists_false_iff]
        refine evictLoop_mono env cfg _ _ _ _ x h _ ?_
        show lookup (removeAll st.fs (genPath cfg i)) _ = none
        rw [lookup_removeAll_gen, if_pos (resolve_genPath cfg i)]
      · simp [hrm] at h
    · simp only [Bool.not_eq_true] at hex
      rw [evictLoop_stop env cfg f i b st hex] at h
      simp only [Option.some.injEq, Except.ok.injEq] at h
      subst h
      exact hex

/-! ## The shift pass -/

theorem lookup_gen_ne (cfg : Config) {fs fs2 : FS α} {a b : Int}
    (h : ∀ q, lookup fs2 q = if resolve q = resolve (genPath cfg b) then lookup fs (genPath cfg a)
      else if resolve q = resolve (genPath cfg a) then none else lookup fs q)
    (j : Int) (hja : j ≠ a) (hjb : j ≠ b) :
    lookup fs2 (genPath cfg j) = lookup fs (genPath cfg j) := by
  rw [h, resolve_genPath, resolve_genPath, resolve_genPath,
    if_neg (fun hp => hjb (genPath_injective cfg hp)),
    if_neg (fun hp => hja (genPath_injective cfg hp))]

/-- One iteration of the real shift loop at an existing generation whose target is free. -/
theorem shiftLoop_step (env : Env α) (cfg : Config) (hdry : cfg.dry = false) (k : Nat)
    (b : Bool) (st : State α) (hmax : ((k + 1 : Nat) : Int) + 1 ≤ maxInt)
    (hex : fileExists st.fs (genPath cfg ((k : Int) + 1)) = true)
    (habs : fileExists st.fs (genPath cfg ((k : Int) + 1 + 1)) = false) :
    shiftLoop env cfg (k + 1) b st
      = if env.renameFails st.fs (genPath cfg ((k : Int) + 1)) (genPath cfg ((k : Int) + 1 + 1))
        then .error (.renameFailed (genPath cfg ((k : Int) + 1)) (genPath cfg ((k : Int) + 1 + 1)),
          { st with log := st.log ++ [LogLine.info (logTag cfg)
              (Action.move (genPath cfg ((k : Int) + 1)) (genPath cfg ((k : Int) + 1 + 1)))] })
        else shiftLoop env cfg k true
          { fs := moveDir st.fs (genPath cfg ((k : Int) + 1)) (genPath cfg ((k : Int) + 1 + 1)),
            log := st.log ++ [LogLine.info (logTag cfg)
              (Action.move (genPath cfg ((k : Int) + 1)) (genPath cfg ((k : Int) + 1 + 1)))],
            ops := st.ops ++ [Action.move (genPath cfg ((k : Int) + 1))
              (genPath cfg ((k : Int) + 1 + 1))] } := by
  have hw : wrapInt ((k : Int) + 1 + 1) = (k : Int) + 1 + 1 :=
    wrapInt_of_range (by omega) (by push_cast at hmax; omega)
  have hcast : (((k + 1 : Nat) : Int)) = (k : Int) + 1 := by push_cast; rfl
  conv_lhs => unfold shiftLoop
  simp only [hcast, hw, hex, Bool.not_true, Bool.false_eq_true, if_false, hdry, Bool.not_false,
    if_true, osRename_eq env st.fs _ _ hex habs]
  cases env.renameFails st.fs (genPath cfg ((k : Int) + 1)) (genPath cfg ((k : Int) + 1 + 1))
    <;> rfl

/-- One iteration of the shift loop at a missing generation. -/
theorem shiftLoop_skip (env : Env α) (cfg : Config) (k : Nat) (b : Bool) (st : State α)
    (hex : fileExists st.fs (genPath cfg ((k : Int) + 1)) = false) :
    shiftLoop env cfg (k + 1) b st = shiftLoop env cfg k b st := by
  have hcast : (((k + 1 : Nat) : Int)) = (k : Int) + 1 := by push_cast; rfl
  conv_lhs => unfold shiftLoop
  simp only [hcast, hex, Bool.not_false, if_true]

theorem shiftLoop_spec (env : Env α) (cfg : Config) (hdry : cfg.dry = false) (k : Nat) :
    ∀ (b : Bool) (st : State α), (k : Int) + 1 ≤ maxInt →
      fileExists st.fs (genPath cfg ((k : Int) + 1)) = false →
      ShiftOutcome env cfg k st (shiftLoop env cfg k b st) := by
  induction k with
  | zero =>
    intro b st _ _
    refine ⟨?_, ?_, fun _ => ⟨(b, st), rfl⟩⟩
    · intro o n s h; simp [shiftLoop] at h
    · intro x hx
      simp only [shiftLoop, Except.ok.injEq] at hx
      subst hx
      refine ⟨?_, ?_, ?_, rfl⟩
      · intro j h1 h2; simp at h2; omega
      · intro h; simp at h
      · intro q _; rfl
  | succ k ih =>
    intro b st hmax habs
    have habs2 : fileExists st.fs (genPath cfg ((k : Int) + 1 + 1)) = false := by
      have e : (((k + 1 : Nat) : Int) + 1) = (k : Int) + 1 + 1 := by push_cast; rfl
      rw [e] at habs; exact habs
    by_cases hex : fileExists st.fs (genPath cfg ((k : Int) + 1)) = true
    · rw [shiftLoop_step env cfg hdry k b st hmax hex habs2]
      cases hrf : env.renameFails st.fs (genPath cfg ((k : Int) + 1))
          (genPath cfg ((k : Int) + 1 + 1))
      · simp only [Bool.false_eq_true, if_false]
        have hlook := lookup_moveDir st.fs (genPath cfg ((k : Int) + 1))
          (genPath cfg ((k : Int) + 1 + 1)) habs2
        have hnew : fileExists (moveDir st.fs (genPath cfg ((k : Int) + 1))
            (genPath cfg ((k : Int) + 1 + 1))) (genPath cfg ((k : Int) + 1)) = false := by
          rw [fileExists_false_iff, hlook, resolve_genPath, resolve_genPath,
            if_neg (fun hp => by have := genPath_injective cfg hp; omega), if_pos rfl]
        have hrec := ih true
          { fs := moveDir st.fs (genPath cfg ((k : Int) + 1)) (genPath cfg ((k : Int) + 1 + 1)),
            log := st.log ++ [LogLine.info (logTag cfg)
              (Action.move (genPath cfg ((k : Int) + 1)) (genPath cfg ((k : Int) + 1 + 1)))],
            ops := st.ops ++ [Action.move (genPath cfg ((k : Int) + 1))
              (genPath cfg ((k : Int) + 1 + 1))] }
          (by push_cast at hmax; omega) hnew
        refine ⟨hrec.noClash, ?_, hrec.ok⟩
        intro x hx
        have hpost := hrec.post x hx
        simp only at hpost
        refine ⟨?_, ?_, ?_, ?_⟩
        · intro j h1 h2
          by_cases hj : j ≤ k
          · rw [hpost.moved j h1 hj]
            exact lookup_gen_ne cfg hlook j (by omega) (by omega)
          · have hjk : j = (k : Int) + 1 := by push_cast at h2; omega
            subst hjk
            rw [hpost.frame]
            · rw [hlook, if_pos rfl]
            · intro j h1 h2
              rw [resolve_genPath]
              exact ⟨fun hp => by have := genPath_injective cfg hp; omega,
                fun hp => by have := genPath_injective cfg hp; omega⟩
        · intro _
          by_cases hk : 1 ≤ k
          · exact hpost.first hk
          · have hk0 : k = 0 := by omega
            subst hk0
            rw [hpost.frame]
            · have := (fileExists_false_iff _ _).1 hnew
              simpa using this
            · intro j h1 h2; simp at h2; omega
        · intro q hq
          rw [hpost.frame q (fun j h1 h2 => hq j h1 (by push_cast; omega))]
          have h := hq ((k : Int) + 1) (by omega) (by push_cast; omega)
          rw [hlook, resolve_genPath, resolve_genPath, if_neg h.2, if_neg h.1]
        · rw [hpost.length_eq]; exact length_moveDir _ _ _
      · simp only [if_true]
        refine ⟨?_, ?_, ?_⟩
        · intro o n s h; simp at h
        · intro x hx; simp at hx
        · intro hall
          rw [hall] at hrf
          exact Bool.noConfusion hrf
    · simp only [Bool.not_eq_true] at hex
      rw [shiftLoop_skip env cfg k b st hex]
      have hrec := ih b st (by push_cast at hmax; omega) hex
      have hnone := (fileExists_false_iff _ _).1 hex
      have hnone2 := (fileExists_false_iff _ _).1 habs2
      refine ⟨hrec.noClash, ?_, hrec.ok⟩
      intro x hx
      have hpost := hrec.post x hx
      refine ⟨?_, ?_, ?_, hpost.length_eq⟩
      · intro j h1 h2
        by_cases hj : j ≤ k
        · exact hpost.moved j h1 hj
        · have hjk : j = (k : Int) + 1 := by push_cast at h2; omega
          subst hjk
          rw [hpost.frame, hnone, hnone2]
          intro j h1 h2
          rw [resolve_genPath]
          exact ⟨fun hp => by have := genPath_injective cfg hp; omega,
            fun hp => by have := genPath_injective cfg hp; omega⟩
      · intro _
        by_cases hk : 1 ≤ k
        · exact hpost.first hk
        · have hk0 : k = 0 := by omega
          subst hk0
          rw [hpost.frame]
          · simpa using hnone
          · intro j h1 h2; simp at h2; omega
      · intro q hq
        exact hpost.frame q (fun j h1 h2 => hq j h1 (by push_cast; omega))

/-- One iteration of the real shift loop at an existing generation whose target, at the
index as the program computes it, is free. -/
theorem shiftLoop_step_wrap (env : Env α) (cfg : Config) (hdry : cfg.dry = false) (k : Nat)
    (b : Bool) (st : State α)
    (hex : fileExists st.fs (genPath cfg ((k : Int) + 1)) = true)
    (habs : fileExists st.fs (genPath cfg (wrapInt ((k : Int) + 1 + 1))) = false) :
    shiftLoop env cfg (k + 1) b st
      = if env.renameFails st.fs (genPath cfg ((k : Int) + 1))
            (genPath cfg (wrapInt ((k : Int) + 1 + 1)))
        then .error (.renameFailed (genPath cfg ((k : Int) + 1))
            (genPath cfg (wrapInt ((k : Int) + 1 + 1))),
          { st with log := st.log ++ [LogLine.info (logTag cfg)
              (Action.move (genPath cfg ((k : Int) + 1))
                (genPath cfg (wrapInt ((k : Int) + 1 + 1))))] })
        else shiftLoop env cfg k true
          { fs := moveDir st.fs (genPath cfg ((k : Int) + 1))
              (genPath cfg (wrapInt ((k : Int) + 1 + 1))),
            log := st.log ++ [LogLine.info (logTag cfg)
              (Action.move (genPath cfg ((k : Int) + 1))
                (genPath cfg (wrapInt ((k : Int) + 1 + 1))))],
            ops := st.ops ++ [Action.move (genPath cfg ((k : Int) + 1))
              (genPath cfg (wrapInt ((k : Int) + 1 + 1)))] } := by
  have hcast : (((k + 1 : Nat) : Int)) = (k : Int) + 1 := by push_cast; rfl
  conv_lhs => unfold shiftLoop
  simp only [hcast, hex, Bool.not_true, Bool.false_eq_true, if_false, hdry, Bool.not_false,
    if_true, osRename_eq env st.fs _ _ hex habs]
  cases env.renameFails st.fs (genPath cfg ((k : Int) + 1))
    (genPath cfg (wrapInt ((k : Int) + 1 + 1))) <;> rfl

/-- A real shift pass from any index up to the largest `int`, started with a free target for
its first rename: no rename meets an existing target, and the pass ends without error when
the operating system lets no rename fail. -/
theorem shiftLoop_safe (env : Env α) (cfg : Config) (hdry : cfg.dry = false) (k : Nat) :
    ∀ (b : Bool) (st : State α), (k : Int) ≤ maxInt →
      (1 ≤ k → fileExists st.fs (genPath cfg (wrapInt ((k : Int) + 1))) = false) →
      (∀ (oldPath newPath : String) (s : State α),
        shiftLoop env cfg k b st ≠ .error (.renameOntoExisting oldPath newPath, s)) ∧
      ((∀ fs p q, env.renameFails fs p q = false) → ∃ x, shiftLoop env cfg k b st = .ok x) := by
  induction k with
  | zero =>
    intro b st _ _
    exact ⟨fun o n s h => by simp [shiftLoop] at h, fun _ => ⟨(b, st), rfl⟩⟩
  | succ k ih =>
    intro b st hmax habs
    have habs2 : fileExists st.fs (genPath cfg (wrapInt ((k : Int) + 1 + 1))) = false := by
      have := habs (by omega)
      have e : (((k + 1 : Nat) : Int) + 1) = (k : Int) + 1 + 1 := by push_cast; rfl
      rw [e] at this; exact this
    have hw : wrapInt ((k : Int) + 1) = (k : Int) + 1 := by
      unfold maxInt at hmax
      exact wrapInt_of_range (by omega) (by unfold maxInt; push_cast at hmax; omega)
    by_cases hex : fileExists st.fs (genPath cfg ((k : Int) + 1)) = true
    · rw [shiftLoop_step_wrap env cfg hdry k b st hex habs2]
      cases hrf : env.renameFails st.fs (genPath cfg ((k : Int) + 1))
          (genPath cfg (wrapInt ((k : Int) + 1 + 1)))
      · simp only [Bool.false_eq_true, if_false]
        apply ih
        · push_cast at hmax; omega
        · intro _
          show fileExists (moveDir st.fs _ _) _ = false
          rw [hw, fileExists_false_iff, lookup_moveDir _ _ _ habs2, resolve_genPath,
            resolve_genPath, if_neg, if_pos rfl]
          intro hp
          have hji := genPath_injective cfg hp
          unfold maxInt at hmax
          unfold wrapInt at hji
          push_cast at hmax
          omega
      · simp only [if_true]
        refine ⟨fun o n s h => by simp at h, fun hall => ?_⟩
        rw [hall] at hrf
        exact Bool.noConfusion hrf
    · simp only [Bool.not_eq_true] at hex
      rw [shiftLoop_skip env cfg k b st hex]
      apply ih
      · push_cast at hmax; omega
      · intro _
        rw [hw]
        exact hex

/-- A dry shift pass touches neither the Backup Root nor the list of performed actions. -/
theorem shiftLoop_dry (env : Env α) (cfg : Config) (hdry : cfg.dry = true) (k : Nat) :
    ∀ (b : Bool) (st : State α),
      ∃ b2 st2, shiftLoop env cfg k b st = .ok (b2, st2) ∧ st2.fs = st.fs
        ∧ st2.ops = st.ops := by
  induction k with
  | zero => intro b st; exact ⟨b, st, rfl, rfl, rfl⟩
  | succ k ih =>
    intro b st
    unfold shiftLoop
    by_cases hex : fileExists st.fs (genPath cfg ((k + 1 : Nat) : Int)) = true
    · simp only [hex, Bool.not_true, Bool.false_eq_true, if_false, hdry]
      obtain ⟨b2, st2, h, h1, h2⟩ := ih true
        { st with log := st.log ++ [LogLine.info (logTag cfg)
            (Action.move (genPath cfg ((k + 1 : Nat) : Int))
              (genPath cfg (wrapInt (((k + 1 : Nat) : Int) + 1))))] }
      exact ⟨b2, st2, h, h1, h2⟩
    · simp only [Bool.not_eq_true] at hex
      simp only [hex, Bool.not_false, if_true]
      exact ih b st

theorem fileExists_removeAll (fs : FS α) (p q : String) :
    fileExists (removeAll fs p) q = if resolve q = resolve p then false else fileExists fs q := by
  rw [fileExists_eq_isSome, fileExists_eq_isSome, lookup_removeAll]
  split <;> rfl

/-- Different existing directories are different entries of the Backup Root. -/
theorem nodup_existing_le_length (ps : List String) :
    ∀ fs : FS α, ps.Nodup → (∀ p ∈ ps, resolve p = p ∧ fileExists fs p = true) →
      ps.length ≤ fs.length := by
  induction ps with
  | nil => intro fs _ _; exact Nat.zero_le _
  | cons p ps ih =>
    intro fs hnd hex
    have hp := hex p (List.mem_cons_self _ _)
    have hlt := length_removeAll_lt fs p hp.2
    have := ih (removeAll fs p) (List.nodup_cons.1 hnd).2 (by
      intro q hq
      have hq2 := hex q (List.mem_cons_of_mem _ hq)
      refine ⟨hq2.1, ?_⟩
      rw [fileExists_removeAll, hq2.1, hp.1, if_neg, hq2.2]
      intro h
      subst h
      exact (List.nodup_cons.1 hnd).1 hq)
    simp only [List.length_cons]
    omega

theorem wrapInt_succ (x : Int) : wrapInt (wrapInt x + 1) = wrapInt (x + 1) := by
  unfold wrapInt
  omega

theorem wrapInt_add_injOn (N : Int) {a b : Nat} (ha : a < 2 ^ 64) (hb : b < 2 ^ 64)
    (h : wrapInt (N + a) = wrapInt (N + b)) : a = b := by
  unfold wrapInt at h
  omega

/-- The indices a scan that started at `N` has looked at after `n` steps exist at
different paths, so there are no more of them than entries. -/
theorem scanned_le_length (cfg : Config) (fs : FS α) (N : Int) (n : Nat) (hn : n ≤ 2 ^ 64)
    (hex : ∀ k : Nat, k < n → fileExists fs (genPath cfg (wrapInt (N + k))) = true) :
    n ≤ fs.length := by
  have h := nodup_existing_le_length
    ((List.range n).map (fun (k : Nat) => genPath cfg (wrapInt (N + k)))) fs
    (by
      apply List.Nodup.map_on _ (List.nodup_range n)
      intro a ha b hb hab
      rw [List.mem_range] at ha hb
      exact wrapInt_add_injOn N (by omega) (by omega) (genPath_injective cfg hab))
    (by
      intro p hp
      rw [List.mem_map] at hp
      obtain ⟨k, hk, rfl⟩ := hp
      rw [List.mem_range] at hk
      exact ⟨resolve_genPath cfg _, hex k hk⟩)
  simpa using h

/-- A dry eviction pass ends without error: the scan meets a missing generation before the
fuel is used. -/
theorem evictLoop_dry_total (env : Env α) (cfg : Config) (hdry : cfg.dry = true) (N : Int) :
    ∀ (fuel k : Nat) (b : Bool) (st : State α),
      (∀ k2 : Nat, k2 < k → fileExists st.fs (genPath cfg (wrapInt (N + k2))) = true) →
      st.fs.length < fuel + k → st.fs.length < 2 ^ 64 →
      ∃ x, evictLoop env cfg fuel (wrapInt (N + k)) b st = some (.ok x) := by
  intro fuel
  induction fuel with
  | zero =>
    intro k b st hex hlen h64
    have := scanned_le_length cfg st.fs N (st.fs.length + 1) (by omega)
      (fun k2 hk2 => hex k2 (by omega))
    omega
  | succ f ih =>
    intro k b st hex hlen h64
    by_cases hk : fileExists st.fs (genPath cfg (wrapInt (N + k))) = true
    · rw [evictLoop_step env cfg f _ b st hk]
      simp only [hdry, if_true]
      have e : wrapInt (wrapInt (N + k) + 1) = wrapInt (N + ((k + 1 : Nat) : Int)) := by
        rw [wrapInt_succ]; congr 1; push_cast; omega
      rw [e]
      apply ih (k + 1)
      · intro k2 hk2
        by_cases h : k2 = k
        · subst h; exact hk
        · exact hex k2 (by omega)
      · simp only; omega
      · exact h64
    · simp only [Bool.not_eq_true] at hk
      exact ⟨_, evictLoop_stop env cfg f _ b st hk⟩

/-- A dry eviction pass touches neither the Backup Root nor the list of performed actions. -/
theorem evictLoop_dry_frame (env : Env α) (cfg : Config) (hdry : cfg.dry = true) :
    ∀ (fuel : Nat) (i : Int) (b : Bool) (st : State α) (x : Bool × State α),
      evictLoop env cfg fuel i b st = some (.ok x) → x.2.fs = st.fs ∧ x.2.ops = st.ops := by
  intro fuel
  induction fuel with
  | zero => intro i b st x h; simp [evictLoop] at h
  | succ f ih =>
    intro i b st x h
    by_cases hex : fileExists st.fs (genPath cfg i) = true
    · rw [evictLoop_step env cfg f i b st hex] at h
      simp only [hdry, if_true] at h
      have h2 := ih _ _ _ x h
      exact h2
    · simp only [Bool.not_eq_true] at hex
      rw [evictLoop_stop env cfg f i b st hex] at h
      simp only [Option.some.injEq, Except.ok.injEq] at h
      subst h
      exact ⟨rfl, rfl⟩

/-- A real eviction pass on a Backup Root of fewer than `2^63` entries leaves the
generations `0`, ..., `N-1` alone. -/
theorem evictLoop_keeps_below (env : Env α) (cfg : Config) (hdry : cfg.dry = false) (N : Int)
    (hN0 : 0 ≤ N) (hNmax : N ≤ maxInt) :
    ∀ (fuel k : Nat) (b : Bool) (st : State α) (x : Bool × State α),
      st.fs.length + k < 2 ^ 63 →
      evictLoop env cfg fuel (wrapInt (N + k)) b st = some (.ok x) →
      ∀ j : Int, 0 ≤ j → j < N →
        lookup x.2.fs (genPath cfg j) = lookup st.fs (genPath cfg j) := by
  intro fuel
  induction fuel with
  | zero => intro k b st x _ h; simp [evictLoop] at h
  | succ f ih =>
    intro k b st x hlen h j hj0 hjN
    by_cases hex : fileExists st.fs (genPath cfg (wrapInt (N + k))) = true
    · rw [evictLoop_step env cfg f _ b st hex] at h
      simp only [hdry, Bool.false_eq_true, if_false] at h
      cases hrm : env.removeFails st.fs (genPath cfg (wrapInt (N + k)))
      · simp only [hrm, Bool.false_eq_true, if_false] at h
        have e : wrapInt (wrapInt (N + k) + 1) = wrapInt (N + ((k + 1 : Nat) : Int)) := by
          rw [wrapInt_succ]; congr 1; push_cast; omega
        rw [e] at h
        have hlt := length_removeAll_lt st.fs _ hex
        rw [ih (k + 1) true _ x (by simp only; omega) h j hj0 hjN]
        simp only
        rw [lookup_removeAll_gen, resolve_genPath, if_neg]
        intro hp
        have hji := genPath_injective cfg hp
        unfold maxInt at hNmax
        unfold wrapInt at hji
        omega
      · simp [hrm] at h
    · simp only [Bool.not_eq_true] at hex
      rw [evictLoop_stop env cfg f _ b st hex] at h
      simp only [Option.some.injEq, Except.ok.injEq] at h
      subst h
      rfl

/-! ## Names of generations -/

theorem decDigits_small {fuel n : Nat} (hf : n < fuel) (hn : n < 10) :
    decDigits fuel n = [digitChar n] := by
  cases fuel with
  | zero => omega
  | succ f => unfold decDigits; rw [if_pos hn]

theorem decDigits_large {fuel n : Nat} (hf : n < fuel) (hn : 10 ≤ n) :
    decDigits fuel n = decDigits (fuel - 1) (n / 10) ++ [digitChar (n % 10)] := by
  cases fuel with
  | zero => omega
  | succ f =>
    rw [Nat.add_sub_cancel]
    conv_lhs => unfold decDigits
    rw [if_neg (by omega)]

theorem fmt03d_three_digits (n : Nat) (h : n < 1000) :
    fmt03d (n : Int) = [digitChar (n / 100), digitChar (n / 10 % 10), digitChar (n % 10)] := by
  unfold fmt03d
  simp only [Int.natAbs_ofNat, Int.not_lt.2 (Int.ofNat_nonneg n), if_false]
  unfold itoa
  by_cases h1 : n < 10
  · rw [decDigits_small (by omega) h1]
    have e1 : n / 100 = 0 := by omega
    have e2 : n / 10 % 10 = 0 := by omega
    have e3 : n % 10 = n := by omega
    rw [e1, e2, e3]
    rfl
  · by_cases h2 : n < 100
    · rw [decDigits_large (by omega) (by omega), decDigits_small (by omega) (by omega)]
      have e1 : n / 100 = 0 := by omega
      have e2 : n / 10 % 10 = n / 10 := by omega
      rw [e1, e2]
      rfl
    · rw [decDigits_large (by omega) (by omega), decDigits_large (by omega) (by omega),
        decDigits_small (by omega) (by omega)]
      have e1 : n / 10 / 10 = n / 100 := by omega
      rw [e1]
      rfl

theorem digitChar_lt {a b : Nat} (hab : a < b) (hb : b < 10) : digitChar a < digitChar b := by
  interval_cases b <;> interval_cases a <;> decide

theorem list_lt_append_left (l : List Char) {a b : List Char} (h : a < b) : l ++ a < l ++ b := by
  induction l with
  | nil => exact h
  | cons c cs ih =>
    exact List.Lex.cons ih

theorem three_digits_lt {i j : Nat} (hij : i < j) (hj : j < 1000) :
    [digitChar (i / 100), digitChar (i / 10 % 10), digitChar (i % 10)]
      < [digitChar (j / 100), digitChar (j / 10 % 10), digitChar (j % 10)] := by
  by_cases h2 : i / 100 < j / 100
  · exact List.Lex.rel (digitChar_lt h2 (by omega))
  · have e2 : i / 100 = j / 100 := by omega
    rw [e2]
    refine List.Lex.cons ?_
    by_cases h1 : i / 10 % 10 < j / 10 % 10
    · exact List.Lex.rel (digitChar_lt h1 (by omega))
    · have e1 : i / 10 % 10 = j / 10 % 10 := by omega
      rw [e1]
      refine List.Lex.cons ?_
      exact List.Lex.rel (digitChar_lt (by omega) (by omega))

/-- C9, as amended: for indices `0 ≤ i < j < 1000` each of the two names is the base name of
the source, `-Backup-` and exactly three decimal digits, the hundreds, tens and units of the
index, so zeros fill the width; and the name of `i` is lexicographically smaller than the
name of `j`. -/
theorem backupName_order_below_1000 (sourcePath : String) (i j : Int) (hi : 0 ≤ i) (hij : i < j)
    (hj : j < 1000) :
    (backupName sourcePath i).data
        = (filepathBase sourcePath).data ++ "-Backup-".data
          ++ [digitChar (i.toNat / 100), digitChar (i.toNat / 10 % 10),
              digitChar (i.toNat % 10)] ∧
      (backupName sourcePath j).data
        = (filepathBase sourcePath).data ++ "-Backup-".data
          ++ [digitChar (j.toNat / 100), digitChar (j.toNat / 10 % 10),
              digitChar (j.toNat % 10)] ∧
      backupName sourcePath i < backupName sourcePath j := by
  obtain ⟨a, rfl⟩ := Int.eq_ofNat_of_zero_le hi
  obtain ⟨b, rfl⟩ := Int.eq_ofNat_of_zero_le (by omega : 0 ≤ j)
  have ha : a < 1000 := by omega
  have hb : b < 1000 := by omega
  have hab : a < b := by omega
  have e1 : (backupName sourcePath (a : Int)).data
      = (filepathBase sourcePath).data ++ "-Backup-".data
        ++ [digitChar (a / 100), digitChar (a / 10 % 10), digitChar (a % 10)] := by
    rw [← fmt03d_three_digits a ha]
    simp [backupName, String.data_append]
  have e2 : (backupName sourcePath (b : Int)).data
      = (filepathBase sourcePath).data ++ "-Backup-".data
        ++ [digitChar (b / 100), digitChar (b / 10 % 10), digitChar (b % 10)] := by
    rw [← fmt03d_three_digits b hb]
    simp [backupName, String.data_append]
  refine ⟨by simpa using e1, by simpa using e2, ?_⟩
  rw [String.lt_iff_toList_lt]
  show (backupName sourcePath (a : Int)).data < (backupName sourcePath (b : Int)).data
  rw [e1, e2]
  exact list_lt_append_left _ (three_digits_lt hab hb)

theorem backupName_order_below_1000_witness :
    (backupName "/home/data" 7).data = "data-Backup-007".data ∧
      (backupName "/home/data" 42).data = "data-Backup-042".data ∧
      backupName "/home/data" 7 < backupName "/home/data" 42 :=
  have h := backupName_order_below_1000 "/home/data" 7 42 (by decide) (by decide) (by decide)
  ⟨h.1.trans (by decide), h.2.1.trans (by decide), h.2.2⟩

/-- C9 fails from index 1000 on: the number takes four characters, and the name of
generation 999 is not smaller than the name of generation 1000. -/
theorem backupName_order_fails_at_1000 :
    (0 : Int) ≤ 999 ∧ (999 : Int) < 1000 ∧
      backupName "/home/data" 999 = "data-Backup-999" ∧
      backupName "/home/data" 1000 = "data-Backup-1000" ∧
      (fmt03d 999).length = 3 ∧ (fmt03d 1000).length = 4 ∧
      ¬ (backupName "/home/data" 999 < backupName "/home/data" 1000) := by
  refine ⟨by decide, by decide, by decide, by decide, by decide, by decide, ?_⟩
  rw [String.lt_iff_toList_lt]
  decide

/-! ## Path normalization -/

theorem getLast?_dropLast_ne {l : List Char} {c : Char}
    (h : ¬ [c, c] <:+ l) (hl : l.getLast? = some c) : l.dropLast.getLast? ≠ some c := by
  intro h2
  apply h
  obtain ⟨l1, e1⟩ : ∃ l1, l = l1 ++ [c] := by
    rcases List.eq_nil_or_concat l with h0 | ⟨l1, d, e⟩
    · rw [h0] at hl; simp at hl
    · rw [e] at hl
      simp at hl
      exact ⟨l1, by rw [e, hl, List.concat_eq_append]⟩
  subst e1
  rw [List.dropLast_concat] at h2
  obtain ⟨l2, e2⟩ : ∃ l2, l1 = l2 ++ [c] := by
    rcases List.eq_nil_or_concat l1 with h0 | ⟨l2, d, e⟩
    · rw [h0] at h2; simp at h2
    · rw [e] at h2
      simp at h2
      exact ⟨l2, by rw [e, h2, List.concat_eq_append]⟩
  subst e2
  exact ⟨l2, by simp⟩

/-- C10, as amended: the path `run` works with is the flag without its last character when
the flag ends in a separator, and the flag itself otherwise; it does not end in a separator
unless the flag ended in two separators. -/
theorem normalize_trims_one_separator (flags : Config) :
    (normalize flags).sourcePath = trimPath flags.sourcePath ∧
      (normalize flags).destPath = trimPath flags.destPath ∧
      ∀ path : String,
        (hasSuffixChar path pathSeparator = true →
          (trimPath path).data = path.data.dropLast) ∧
        (hasSuffixChar path pathSeparator = false → trimPath path = path) ∧
        (¬ [pathSeparator, pathSeparator] <:+ path.data →
          hasSuffixChar (trimPath path) pathSeparator = false) := by
  refine ⟨rfl, rfl, fun path => ⟨?_, ?_, ?_⟩⟩
  · intro h
    have h2 : hasSuffixChar path '/' = true := h
    simp [trimPath, h, h2]
  · intro h
    have h2 : hasSuffixChar path '/' = false := h
    simp [trimPath, h, h2]
  · intro h
    by_cases hs : hasSuffixChar path pathSeparator = true
    · have h2 : hasSuffixChar path '/' = true := hs
      have hl : path.data.getLast? = some pathSeparator := by
        unfold hasSuffixChar at hs
        simpa using hs
      have := getLast?_dropLast_ne h hl
      simp only [trimPath, hs, h2, Bool.or_self, if_true]
      unfold hasSuffixChar
      simpa using this
    · simp only [Bool.not_eq_true] at hs
      have h2 : hasSuffixChar path '/' = false := hs
      simp only [trimPath, hs, h2, Bool.or_self, Bool.false_eq_true, if_false]

/-- C10 fails for a flag that ends in two separators: one is left. -/
theorem normalize_leaves_second_separator :
    (normalize (Config.mk "/data//" "/mnt/backup//" 3 false)).sourcePath = "/data/" ∧
      (normalize (Config.mk "/data//" "/mnt/backup//" 3 false)).destPath = "/mnt/backup/" ∧
      hasSuffixChar "/data/" pathSeparator = true ∧
      hasSuffixChar "/mnt/backup/" pathSeparator = true := by
  decide

/-! ## The argument list -/

theorem genPath_of_clean (cfg : Config) (hclean : filepathClean cfg.destPath = cfg.destPath)
    (hroot : cfg.destPath ≠ "/") (hdot : cfg.destPath ≠ ".")
    (hbase : filepathBase cfg.sourcePath ≠ "/") (i : Int) :
    genPath cfg i = cfg.destPath ++ "/" ++ backupName cfg.sourcePath i := by
  have hc : cleanChars cfg.destPath.data = cfg.destPath.data := by
    have := congrArg String.data hclean
    exact this
  have hr : cfg.destPath.data ≠ ['/'] := fun h => hroot (String.ext h)
  have hd : cfg.destPath.data ≠ ['.'] := fun h => hdot (String.ext h)
  have hne : cfg.destPath.data ≠ [] := by
    intro h
    rw [h] at hc
    simp [cleanChars] at hc
  have hB : SepFree (baseChars cfg.sourcePath.data) := by
    rcases baseChars_cases cfg.sourcePath.data with h | h
    · exact absurd (String.ext h) hbase
    · exact h.1
  apply String.ext
  unfold genPath filepathJoin joinChars
  rw [if_pos hne, backupName_data, cleanChars_sep_elem _ (proper_name hB i),
    cleanedFront_of_clean hc hr hd]
  simp [String.data_append, backupName_data]

/-- C4, as amended: for a destination path that `filepath.Clean` leaves unchanged and that is
neither `/` nor `.`, and a source path whose last element is not `/`, the arguments are the
four options, the link reference `<dest>/<base>-Backup-002/` exactly when the directory of
generation 2 exists, then `<source>/` and `<dest>/<base>-Backup-001`. -/
theorem buildArgs_of_clean_dest {α : Type} (cfg : Config) (fs : FS α)
    (hclean : filepathClean cfg.destPath = cfg.destPath)
    (hroot : cfg.destPath ≠ "/") (hdot : cfg.destPath ≠ ".")
    (hbase : filepathBase cfg.sourcePath ≠ "/") :
    buildArgs cfg fs = claimedArgs cfg.sourcePath cfg.destPath
      (fileExists fs (cfg.destPath ++ "/" ++ filepathBase cfg.sourcePath ++ "-Backup-002")) := by
  have h1 := genPath_of_clean cfg hclean hroot hdot hbase 1
  have h2 := genPath_of_clean cfg hclean hroot hdot hbase 2
  have n1 : backupName cfg.sourcePath 1 = filepathBase cfg.sourcePath ++ "-Backup-001" := by
    apply String.ext
    simp [backupName, String.data_append]
    rfl
  have n2 : backupName cfg.sourcePath 2 = filepathBase cfg.sourcePath ++ "-Backup-002" := by
    apply String.ext
    simp [backupName, String.data_append]
    rfl
  have hex : fileExists fs (genPath cfg 2 ++ String.singleton pathSeparator)
      = fileExists fs (genPath cfg 2) :=
    fileExists_congr fs (by rw [resolve_genPath_sep, resolve_genPath])
  have e2 : cfg.destPath ++ "/" ++ filepathBase cfg.sourcePath ++ "-Backup-002"
      = genPath cfg 2 := by
    rw [h2, n2]
    apply String.ext
    simp [String.data_append]
  have e1 : cfg.destPath ++ "/" ++ filepathBase cfg.sourcePath ++ "-Backup-001"
      = genPath cfg 1 := by
    rw [h1, n1]
    apply String.ext
    simp [String.data_append]
  have e3 : cfg.destPath ++ "/" ++ filepathBase cfg.sourcePath ++ "-Backup-002/"
      = genPath cfg 2 ++ String.singleton pathSeparator := by
    rw [h2, n2]
    apply String.ext
    simp [String.data_append, pathSeparator]
  have e4 : cfg.sourcePath ++ String.singleton pathSeparator = cfg.sourcePath ++ "/" := rfl
  unfold claimedArgs
  rw [e1, e2, e3]
  unfold buildArgs genPath at *
  simp only [hex, e4]
  split <;> rfl

theorem buildArgs_of_clean_dest_witness :
    buildArgs (Config.mk "/home/data" "/mnt/backup" 3 false)
        [("/mnt/backup/data-Backup-002", 0)]
      = ["--archive", "--verbose", "--safe-links", "--delete",
          "--link-dest=/mnt/backup/data-Backup-002/", "/home/data/",
          "/mnt/backup/data-Backup-001"] :=
  (buildArgs_of_clean_dest (Config.mk "/home/data" "/mnt/backup" 3 false)
    [("/mnt/backup/data-Backup-002", 0)]
    (by decide) (by decide) (by decide) (by decide)).trans (by decide)

/-- C4 fails for a destination path that `filepath.Join` rewrites: for `./backups` the
target is `backups/data-Backup-001`, not `./backups/data-Backup-001`. -/
theorem buildArgs_cleans_dest :
    buildArgs (Config.mk "/home/data" "./backups" 3 false) ([] : FS Nat)
      = ["--archive", "--verbose", "--safe-links", "--delete", "/home/data/",
          "backups/data-Backup-001"] ∧
      claimedArgs "/home/data" "./backups" false
        = ["--archive", "--verbose", "--safe-links", "--delete", "/home/data/",
          "./backups/data-Backup-001"] ∧
      buildArgs (Config.mk "/home/data" "./backups" 3 false) ([] : FS Nat)
        ≠ claimedArgs "/home/data" "./backups" false ∧
      trimPath "./backups" = "./backups" ∧ trimPath "/home/data" = "/home/data" := by
  decide

/-! ## Rotation -/

theorem logBlankIf_fs (b : Bool) (st : State α) : (logBlankIf b st).fs = st.fs := by
  cases b <;> rfl

theorem logBlankIf_ops (b : Bool) (st : State α) : (logBlankIf b st).ops = st.ops := by
  cases b <;> rfl

/-- The only error of the eviction pass is that of a removal. -/
theorem evictLoop_error (env : Env α) (cfg : Config) :
    ∀ (fuel : Nat) (i : Int) (b : Bool) (st : State α) (e : RunError × State α),
      evictLoop env cfg fuel i b st = some (.error e) → ∃ p, e.1 = .removeFailed p := by
  intro fuel
  induction fuel with
  | zero => intro i b st e h; simp [evictLoop] at h
  | succ f ih =>
    intro i b st e h
    by_cases hex : fileExists st.fs (genPath cfg i) = true
    · rw [evictLoop_step env cfg f i b st hex] at h
      cases hd : cfg.dry
      · simp only [hd, Bool.false_eq_true, if_false] at h
        cases hrm : env.removeFails st.fs (genPath cfg i)
        · simp only [hrm, Bool.false_eq_true, if_false] at h
          exact ih _ _ _ e h
        · simp only [hrm, if_true, Option.some.injEq, Except.error.injEq] at h
          exact ⟨_, by rw [← h]⟩
      · simp only [hd, if_true] at h
        exact ih _ _ _ e h
    · simp only [Bool.not_eq_true] at hex
      rw [evictLoop_stop env cfg f i b st hex] at h
      simp at h

/-- What is known of a real rotation with a retention count of at least one: both passes
come to an end; no rename meets an existing target; a rotation that ends without error has
left generation `N` missing after the eviction pass and has renamed what is left of `1`,
..., `N-1`; a rotation in which the operating system lets no call fail ends without error. -/
theorem rotate_spec (env : Env α) (cfg : Config) (st : State α) (fuel : Nat)
    (hdry : cfg.dry = false) (h1 : 1 ≤ cfg.countGen) (hmax : cfg.countGen ≤ maxInt)
    (hfuel : st.fs.length < fuel) :
    ∃ r, rotate env cfg fuel st = some r ∧
      (∀ (oldPath newPath : String) (s : State α),
        r ≠ .error (.renameOntoExisting oldPath newPath, s)) ∧
      (∀ st3, r = .ok st3 → ∃ b1 st1 b2 st2,
        evictLoop env cfg fuel cfg.countGen false st = some (.ok (b1, st1)) ∧
        st3 = logBlankIf b2 st2 ∧
        fileExists st1.fs (genPath cfg cfg.countGen) = false ∧
        ShiftPost cfg (cfg.countGen - 1).toNat st1.fs st2.fs) ∧
      ((∀ fs p, env.removeFails fs p = false) → (∀ fs p q, env.renameFails fs p q = false) →
        ∃ st3, r = .ok st3) := by
  obtain ⟨r0, hev⟩ := evictLoop_total env cfg hdry fuel cfg.countGen false st hfuel
  cases r0 with
  | error e =>
    refine ⟨.error e, ?_, ?_, ?_, ?_⟩
    · unfold rotate; rw [hev]
    · intro o n s h
      obtain ⟨p, hp⟩ := evictLoop_error env cfg _ _ _ _ e hev
      simp only [Except.error.injEq] at h
      rw [h] at hp
      simp at hp
    · intro st3 h; simp at h
    · intro hrm _
      obtain ⟨x, hx⟩ := evictLoop_total_ok env cfg hdry hrm fuel cfg.countGen false st hfuel
      rw [hev] at hx
      simp at hx
  | ok x =>
    obtain ⟨b1, st1⟩ := x
    have habs := evictLoop_absent env cfg hdry fuel cfg.countGen false st _ hev
    have hw : wrapInt (cfg.countGen - 1) = cfg.countGen - 1 := by
      unfold maxInt at hmax
      exact wrapInt_of_range (by omega) (by unfold maxInt; omega)
    have hk : (((cfg.countGen - 1).toNat : Nat) : Int) + 1 = cfg.countGen := by omega
    have hout := shiftLoop_spec env cfg hdry (cfg.countGen - 1).toNat false
      (logBlankIf b1 st1) (by rw [hk]; exact hmax) (by rw [hk, logBlankIf_fs]; exact habs)
    have hrot : rotate env cfg fuel st
        = some (match shiftLoop env cfg (cfg.countGen - 1).toNat false (logBlankIf b1 st1) with
          | .error e => .error e
          | .ok (b2, st2) => .ok (logBlankIf b2 st2)) := by
      unfold rotate
      simp only [hev, hw]
      cases shiftLoop env cfg (cfg.countGen - 1).toNat false (logBlankIf b1 st1) <;> rfl
    refine ⟨_, hrot, ?_, ?_, ?_⟩
    · intro o n s h
      cases hsh : shiftLoop env cfg (cfg.countGen - 1).toNat false (logBlankIf b1 st1) with
      | error e =>
        rw [hsh] at h hout
        simp only [Except.error.injEq] at h
        exact hout.noClash o n s (by rw [h])
      | ok y => rw [hsh] at h; simp at h
    · intro st3 h
      cases hsh : shiftLoop env cfg (cfg.countGen - 1).toNat false (logBlankIf b1 st1) with
      | error e => rw [hsh] at h; simp at h
      | ok y =>
        obtain ⟨b2, st2⟩ := y
        rw [hsh] at h hout
        simp only [Except.ok.injEq] at h
        have hpost := hout.post (b2, st2) rfl
        rw [logBlankIf_fs] at hpost
        exact ⟨b1, st1, b2, st2, hev, h.symm, habs, hpost⟩
    · intro _ hrn
      obtain ⟨y, hy⟩ := hout.ok hrn
      rw [hy]
      exact ⟨_, rfl⟩

/-- The eviction pass that ends without error, given the first index `m` from `N` on
without a directory: it has met the generations `N`, ..., `m-1`. -/
theorem evictLoop_first_gap (env : Env α) (cfg : Config) (st : State α) (m : Int) (fuel : Nat)
    (x : Bool × State α) (hlo : -2 ^ 63 ≤ cfg.countGen) (hNm : cfg.countGen ≤ m)
    (hm : m ≤ maxInt)
    (hex : ∀ j : Int, cfg.countGen ≤ j → j < m → fileExists st.fs (genPath cfg j) = true)
    (hgap : fileExists st.fs (genPath cfg m) = false)
    (h : evictLoop env cfg fuel cfg.countGen false st = some (.ok x)) :
    x = (decide (cfg.countGen < m),
      evictResult cfg cfg.countGen (m - cfg.countGen).toNat st) := by
  have hn : cfg.countGen + (((m - cfg.countGen).toNat : Nat) : Int) = m := by omega
  have hex2 : ∀ k : Nat, k < (m - cfg.countGen).toNat →
      fileExists st.fs (genPath cfg (cfg.countGen + k)) = true :=
    fun k hk => hex _ (by omega) (by omega)
  rw [evictLoop_spec env cfg (m - cfg.countGen).toNat fuel cfg.countGen false st x hlo
    (by rw [hn]; exact hm) hex2 (by rw [hn]; exact hgap) h]
  congr 1
  simp only [Bool.false_or, decide_eq_decide]
  omega

/-- C5, as amended: with `m` the first index from `N` on without a directory, `m` at most the
largest `int`, the real eviction pass ends; when it ends without error it has removed the
generations `N`, ..., `m-1` in this order and left every other directory as it was; and it
ends without error when no removal fails. -/
theorem eviction_removes_up_to_first_gap (env : Env α) (cfg : Config) (st : State α) (m : Int)
    (fuel : Nat) (hdry : cfg.dry = false) (hlo : -2 ^ 63 ≤ cfg.countGen)
    (hNm : cfg.countGen ≤ m) (hm : m ≤ maxInt)
    (hex : ∀ j : Int, cfg.countGen ≤ j → j < m → fileExists st.fs (genPath cfg j) = true)
    (hgap : fileExists st.fs (genPath cfg m) = false) (hfuel : st.fs.length < fuel) :
    ∃ r, evictLoop env cfg fuel cfg.countGen false st = some r ∧
      (∀ x : Bool × State α, r = .ok x →
        x.1 = decide (cfg.countGen < m) ∧
        x.2.ops = st.ops
          ++ (genPaths cfg cfg.countGen (m - cfg.countGen).toNat).map Action.remove ∧
        (∀ j : Int, cfg.countGen ≤ j → j < m → lookup x.2.fs (genPath cfg j) = none) ∧
        (∀ q : String, (∀ j : Int, cfg.countGen ≤ j → j < m → resolve q ≠ genPath cfg j) →
          lookup x.2.fs q = lookup st.fs q)) ∧
      ((∀ fs p, env.removeFails fs p = false) → ∃ x, r = .ok x) := by
  obtain ⟨r, hev⟩ := evictLoop_total env cfg hdry fuel cfg.countGen false st hfuel
  refine ⟨r, hev, ?_, ?_⟩
  · intro x hx
    rw [hx] at hev
    rw [evictLoop_first_gap env cfg st m fuel x hlo hNm hm hex hgap hev]
    refine ⟨rfl, ?_, ?_, ?_⟩
    · simp [evictResult, hdry]
    · intro j hj1 hj2
      simp only [evictResult, hdry, Bool.false_eq_true, if_false]
      rw [lookup_evicted, if_pos]
      rw [resolve_genPath, mem_genPaths]
      exact ⟨j, hj1, by omega, rfl⟩
    · intro q hq
      simp only [evictResult, hdry, Bool.false_eq_true, if_false]
      rw [lookup_evicted, if_neg]
      rw [mem_genPaths]
      rintro ⟨j, hj1, hj2, hj3⟩
      exact hq j hj1 (by omega) hj3
  · intro hrm
    obtain ⟨x, hx⟩ := evictLoop_total_ok env cfg hdry hrm fuel cfg.countGen false st hfuel
    rw [hev] at hx
    exact ⟨x, by simpa using hx⟩

/-- C8: the real eviction pass ends; when it ends without error, a second pass right after
it finds generation `N` missing, removes nothing, logs nothing and returns the state of the
first pass; and the first pass ends without error when no removal fails. -/
theorem eviction_idempotent (env : Env α) (cfg : Config) (st : State α) (fuel : Nat)
    (hdry : cfg.dry = false) (hfuel : st.fs.length < fuel) :
    ∃ r, evictLoop env cfg fuel cfg.countGen false st = some r ∧
      (∀ (b1 : Bool) (st1 : State α), r = .ok (b1, st1) →
        evictLoop env cfg fuel cfg.countGen false st1 = some (.ok (false, st1))) ∧
      ((∀ fs p, env.removeFails fs p = false) → ∃ b1 st1, r = .ok (b1, st1)) := by
  obtain ⟨r, hev⟩ := evictLoop_total env cfg hdry fuel cfg.countGen false st hfuel
  refine ⟨r, hev, ?_, ?_⟩
  · intro b1 st1 hr
    rw [hr] at hev
    have habs := evictLoop_absent env cfg hdry fuel cfg.countGen false st _ hev
    obtain ⟨f, rfl⟩ : ∃ f, fuel = f + 1 := ⟨fuel - 1, by omega⟩
    exact evictLoop_stop env cfg f cfg.countGen false st1 habs
  · intro hrm
    obtain ⟨x, hx⟩ := evictLoop_total_ok env cfg hdry hrm fuel cfg.countGen false st hfuel
    rw [hev] at hx
    exact ⟨x.1, x.2, by simpa using hx⟩

/-- C6, as amended: for a retention count of at least one, the real rotation ends, and when
it ends without error it leaves no directory of generation 1; it ends without error when the
operating system lets no removal and no rename fail. -/
theorem rotation_frees_first_slot (env : Env α) (cfg : Config) (st : State α) (fuel : Nat)
    (hdry : cfg.dry = false) (h1 : 1 ≤ cfg.countGen) (hmax : cfg.countGen ≤ maxInt)
    (hfuel : st.fs.length < fuel) :
    ∃ r, rotate env cfg fuel st = some r ∧
      (∀ st2, r = .ok st2 → fileExists st2.fs (genPath cfg 1) = false) ∧
      ((∀ fs p, env.removeFails fs p = false) → (∀ fs p q, env.renameFails fs p q = false) →
        ∃ st2, r = .ok st2) := by
  obtain ⟨r, hrot, _, hok, hsucc⟩ := rotate_spec env cfg st fuel hdry h1 hmax hfuel
  refine ⟨r, hrot, ?_, hsucc⟩
  intro st3 hr
  obtain ⟨b1, st1, b2, st2, _, hst3, habs, hpost⟩ := hok st3 hr
  rw [hst3, logBlankIf_fs, fileExists_false_iff]
  by_cases hk : 1 ≤ (cfg.countGen - 1).toNat
  · exact hpost.first hk
  · have hN : cfg.countGen = 1 := by omega
    rw [hpost.frame]
    · rw [← fileExists_false_iff, ← hN]; exact habs
    · intro j hj1 hj2
      omega

/-- C2, as amended: for a Backup Root of fewer than `2^63` entries, the real rotation ends
and no rename of the shift pass meets an existing target; when the rotation ends without
error, every generation `i` with `1 ≤ i < N` is generation `i+1` afterwards, with the same
content; and it ends without error when the operating system lets no removal and no rename
fail. -/
theorem rotation_shifts_generations (env : Env α) (cfg : Config) (st : State α) (fuel : Nat)
    (hdry : cfg.dry = false) (hlo : -2 ^ 63 ≤ cfg.countGen) (hmax : cfg.countGen ≤ maxInt)
    (hlen : st.fs.length < 2 ^ 63) (hfuel : st.fs.length < fuel) :
    ∃ r, rotate env cfg fuel st = some r ∧
      (∀ (oldPath newPath : String) (s : State α),
        r ≠ .error (.renameOntoExisting oldPath newPath, s)) ∧
      (∀ st2, r = .ok st2 → ∀ i : Int, 1 ≤ i → i < cfg.countGen →
        lookup st2.fs (genPath cfg (i + 1)) = lookup st.fs (genPath cfg i)) ∧
      ((∀ fs p, env.removeFails fs p = false) → (∀ fs p q, env.renameFails fs p q = false) →
        ∃ st2, r = .ok st2) := by
  by_cases h1 : 1 ≤ cfg.countGen
  · obtain ⟨r, hrot, hclash, hok, hsucc⟩ := rotate_spec env cfg st fuel hdry h1 hmax hfuel
    refine ⟨r, hrot, hclash, ?_, hsucc⟩
    intro st3 hr i hi1 hi2
    obtain ⟨b1, st1, b2, st2, hev, hst3, _, hpost⟩ := hok st3 hr
    have hw : wrapInt (cfg.countGen + ((0 : Nat) : Int)) = cfg.countGen := by
      simp only [Nat.cast_zero, add_zero]
      exact wrapInt_of_range (by omega) hmax
    rw [← hw] at hev
    have hkeep := evictLoop_keeps_below env cfg hdry cfg.countGen (by omega) hmax fuel 0 false
      st _ (by omega) hev i (by omega) hi2
    rw [hst3, logBlankIf_fs, hpost.moved i hi1 (by omega)]
    exact hkeep
  · obtain ⟨r0, hev⟩ := evictLoop_total env cfg hdry fuel cfg.countGen false st hfuel
    cases r0 with
    | error e =>
      refine ⟨.error e, ?_, ?_, ?_, ?_⟩
      · unfold rotate; rw [hev]
      · intro o n s h
        obtain ⟨p, hp⟩ := evictLoop_error env cfg _ _ _ _ e hev
        simp only [Except.error.injEq] at h
        rw [h] at hp
        simp at hp
      · intro st2 h; simp at h
      · intro hrm _
        obtain ⟨x, hx⟩ := evictLoop_total_ok env cfg hdry hrm fuel cfg.countGen false st hfuel
        rw [hev] at hx
        simp at hx
    | ok x =>
      obtain ⟨b1, st1⟩ := x
      have habs := evictLoop_absent env cfg hdry fuel cfg.countGen false st _ hev
      have hsafe := shiftLoop_safe env cfg hdry (wrapInt (cfg.countGen - 1)).toNat false
        (logBlankIf b1 st1) (by unfold wrapInt maxInt; omega) (by
          intro hk
          have e : wrapInt ((((wrapInt (cfg.countGen - 1)).toNat : Nat) : Int) + 1)
              = cfg.countGen := by
            unfold wrapInt at hk ⊢
            omega
          rw [e, logBlankIf_fs]
          exact habs)
      have hrot : rotate env cfg fuel st
          = some (match shiftLoop env cfg (wrapInt (cfg.countGen - 1)).toNat false
              (logBlankIf b1 st1) with
            | .error e => .error e
            | .ok (b2, st2) => .ok (logBlankIf b2 st2)) := by
        unfold rotate
        simp only [hev]
        cases shiftLoop env cfg (wrapInt (cfg.countGen - 1)).toNat false (logBlankIf b1 st1)
          <;> rfl
      refine ⟨_, hrot, ?_, ?_, ?_⟩
      · intro o n s h
        cases hsh : shiftLoop env cfg (wrapInt (cfg.countGen - 1)).toNat false
            (logBlankIf b1 st1) with
        | error e =>
          rw [hsh] at h
          simp only [Except.error.injEq] at h
          exact hsafe.1 o n s (by rw [hsh, h])
        | ok y => rw [hsh] at h; simp at h
      · intro st2 _ i hi1 hi2
        omega
      · intro _ hrn
        obtain ⟨y, hy⟩ := hsafe.2 hrn
        rw [hy]
        exact ⟨_, rfl⟩

/-! ## The whole run -/

theorem rotate_dry (env : Env α) (cfg : Config) (st : State α) (fuel : Nat)
    (hdry : cfg.dry = true) (hlo : -2 ^ 63 ≤ cfg.countGen) (hhi : cfg.countGen ≤ maxInt)
    (hlen : st.fs.length < 2 ^ 64) (hfuel : st.fs.length < fuel) :
    ∃ st2, rotate env cfg fuel st = some (.ok st2) ∧ st2.fs = st.fs ∧ st2.ops = st.ops := by
  have hw : wrapInt (cfg.countGen + ((0 : Nat) : Int)) = cfg.countGen := by
    simp only [Nat.cast_zero, add_zero]
    exact wrapInt_of_range hlo hhi
  obtain ⟨⟨b1, st1⟩, hev⟩ := evictLoop_dry_total env cfg hdry cfg.countGen fuel 0 false st
    (fun k2 hk2 => by omega) (by omega) hlen
  rw [hw] at hev
  obtain ⟨hfs1, hops1⟩ := evictLoop_dry_frame env cfg hdry fuel _ _ _ _ hev
  obtain ⟨b2, st2, hsh, hfs2, hops2⟩ :=
    shiftLoop_dry env cfg hdry (wrapInt (cfg.countGen - 1)).toNat false (logBlankIf b1 st1)
  refine ⟨logBlankIf b2 st2, ?_, ?_, ?_⟩
  · unfold rotate
    simp only [hev, hsh]
  · rw [logBlankIf_fs, hfs2, logBlankIf_fs]; exact hfs1
  · rw [logBlankIf_ops, hops2, logBlankIf_ops]; exact hops1

theorem invoke_dry (env : Env α) (cfg : Config) (rsyncPath : String) (st : State α)
    (hdry : cfg.dry = true) :
    ∃ st2, invoke env cfg rsyncPath st = .ok st2 ∧ st2.fs = st.fs ∧ st2.ops = st.ops := by
  unfold invoke
  simp only [hdry, Bool.not_true, Bool.false_eq_true, if_false]
  exact ⟨_, rfl, rfl, rfl⟩

/-- C3: a dry run ends; unless it stops at the checks before the first action, it returns
the Backup Root it was given and has performed no action: no removal, no rename and no call
of rsync. The checks passed, it does return a state. -/
theorem dry_run_changes_nothing (env : Env α) (flags : Config) (fs : FS α) (fuel : Nat)
    (hdry : flags.dry = true) (hlo : -2 ^ 63 ≤ flags.countGen) (hhi : flags.countGen ≤ maxInt)
    (hlen : fs.length < 2 ^ 64) (hfuel : fs.length < fuel) :
    ∃ r, run env fuel flags fs = some r ∧
      (∀ st, r = .ok st → st.fs = fs ∧ st.ops = []) ∧
      (env.lookPath.isSome = true → env.isDirectory flags.sourcePath = true →
        env.isDirectory flags.destPath = true → ∃ st, r = .ok st) := by
  unfold run checkRsync checkPath
  cases hl : env.lookPath with
  | none =>
    refine ⟨_, rfl, ?_, ?_⟩
    · intro st h; cases h
    · intro h; simp at h
  | some p =>
    cases hs : env.isDirectory flags.sourcePath with
    | false =>
      refine ⟨_, rfl, ?_, ?_⟩
      · intro st h; cases h
      · intro _ h; simp at h
    | true =>
      cases hd : env.isDirectory flags.destPath with
      | false =>
        refine ⟨_, rfl, ?_, ?_⟩
        · intro st h; cases h
        · intro _ _ h; simp at h
      | true =>
        obtain ⟨st1, hrot, hfs1, hops1⟩ := rotate_dry env (normalize flags)
          { fs := fs, log := [], ops := [] } fuel hdry hlo hhi hlen hfuel
        obtain ⟨st2, hinv, hfs2, hops2⟩ := invoke_dry env (normalize flags) p st1 hdry
        refine ⟨.ok st2, ?_, ?_, ?_⟩
        · simp only [Bool.not_true, Bool.false_eq_true, if_false, hrot, hinv]
        · intro st h
          cases h
          exact ⟨hfs2.trans hfs1, hops2.trans hops1⟩
        · intro _ _ _
          exact ⟨st2, rfl⟩

theorem fileExists_eq_of_lookup_eq {fs fs2 : FS α} {p q : String}
    (h : lookup fs p = lookup fs2 q) : fileExists fs p = fileExists fs2 q := by
  rw [fileExists_eq_isSome, fileExists_eq_isSome, h]

theorem buildArgs_getLast (cfg : Config) (fs : FS α) :
    (buildArgs cfg fs).getLast?.getD "" = genPath cfg 1 := by
  unfold buildArgs genPath
  simp

theorem invoke_real (env : Env α) (cfg : Config) (rsyncPath : String) (st : State α)
    (fs3 : FS α) (hdry : cfg.dry = false)
    (hs : env.sync rsyncPath (buildArgs cfg st.fs) st.fs = some fs3) :
    ∃ st2, invoke env cfg rsyncPath st = .ok st2 ∧ st2.fs = fs3 := by
  unfold invoke
  simp only [hdry, Bool.not_false, if_true, hs]
  exact ⟨_, rfl, rfl⟩

/-- The generations after a real eviction pass that ended without error, on a Backup Root
that holds exactly the generations `1`, ..., `K`. -/
theorem evict_contiguous (env : Env α) (cfg : Config) (st st1 : State α) (fuel : Nat) (K : Nat)
    (b1 : Bool) (hdry : cfg.dry = false) (h1 : 1 ≤ cfg.countGen)
    (hmax : cfg.countGen ≤ maxInt) (hKmax : (K : Int) < maxInt)
    (hK : ∀ j : Int, fileExists st.fs (genPath cfg j) = true ↔ 1 ≤ j ∧ j ≤ K)
    (hev : evictLoop env cfg fuel cfg.countGen false st = some (.ok (b1, st1))) :
    ∀ j : Int, fileExists st1.fs (genPath cfg j) = true
      ↔ 1 ≤ j ∧ j ≤ K ∧ j < cfg.countGen := by
  have hgap : fileExists st.fs (genPath cfg (max cfg.countGen ((K : Int) + 1))) = false := by
    rw [← Bool.not_eq_true, hK]
    omega
  have hev2 := evictLoop_first_gap env cfg st (max cfg.countGen ((K : Int) + 1)) fuel (b1, st1)
    (by omega) (le_max_left _ _) (by unfold maxInt at *; omega)
    (fun j hj1 hj2 => (hK j).2 (by omega)) hgap hev
  have hst : st1 = evictResult cfg cfg.countGen
      (max cfg.countGen ((K : Int) + 1) - cfg.countGen).toNat st := by
    simp only [Prod.mk.injEq] at hev2
    exact hev2.2
  intro j
  have hlook : lookup st1.fs (genPath cfg j)
      = if cfg.countGen ≤ j ∧ j < max cfg.countGen ((K : Int) + 1) then none
        else lookup st.fs (genPath cfg j) := by
    rw [hst]
    simp only [evictResult, hdry, Bool.false_eq_true, if_false]
    rw [lookup_evicted, resolve_genPath]
    congr 1
    rw [mem_genPaths, eq_iff_iff]
    constructor
    · rintro ⟨j2, hj1, hj2, hp⟩
      have := genPath_injective cfg hp
      omega
    · intro hj
      exact ⟨j, hj.1, by omega, rfl⟩
  by_cases hj : cfg.countGen ≤ j ∧ j < max cfg.countGen ((K : Int) + 1)
  · rw [if_pos hj, ← fileExists_false_iff] at hlook
    rw [hlook]
    simp only [Bool.false_eq_true, false_iff]
    omega
  · rw [if_neg hj] at hlook
    rw [fileExists_eq_of_lookup_eq hlook, hK]
    omega

/-- The generations after a real shift pass over `N-1`, ..., 1. -/
theorem shift_contiguous (cfg : Config) (fs1 fs2 : FS α) (K : Nat) (h1 : 1 ≤ cfg.countGen)
    (hfs1 : ∀ j : Int, fileExists fs1 (genPath cfg j) = true
      ↔ 1 ≤ j ∧ j ≤ K ∧ j < cfg.countGen)
    (hpost : ShiftPost cfg (cfg.countGen - 1).toNat fs1 fs2) :
    ∀ j : Int, fileExists fs2 (genPath cfg j) = true
      ↔ 2 ≤ j ∧ j ≤ cfg.countGen ∧ j ≤ K + 1 := by
  intro j
  by_cases hj : 2 ≤ j ∧ j ≤ cfg.countGen
  · have := hpost.moved (j - 1) (by omega) (by omega)
    rw [show j - 1 + 1 = j by omega] at this
    rw [fileExists_eq_of_lookup_eq this, hfs1]
    omega
  · by_cases hj1 : j = 1 ∧ 2 ≤ cfg.countGen
    · have := hpost.first (by omega)
      rw [← fileExists_false_iff, ← hj1.1] at this
      rw [this]
      simp only [Bool.false_eq_true, false_iff]
      omega
    · have := hpost.frame (genPath cfg j) (fun j2 hj2 hj3 => by
        rw [resolve_genPath]
        exact ⟨fun hp => by have := genPath_injective cfg hp; omega,
          fun hp => by have := genPath_injective cfg hp; omega⟩)
      rw [fileExists_eq_of_lookup_eq this, hfs1]
      omega

theorem nodup_length_le (l : List Int) (N : Int) (hnd : l.Nodup)
    (h : ∀ j ∈ l, 1 ≤ j ∧ j ≤ N) : (l.length : Int) ≤ max N 0 := by
  have hsub : l.toFinset ⊆ Finset.Icc 1 N := by
    intro j hj
    rw [List.mem_toFinset] at hj
    rw [Finset.mem_Icc]
    exact h j hj
  have hcard := Finset.card_le_card hsub
  rw [List.toFinset_card_of_nodup hnd, Int.card_Icc] at hcard
  omega

/-- C1, as amended: for a retention count `N ≥ 1` and a Backup Root whose generations are
exactly `1`, ..., `K`, a real run with a sync that creates its target ends, and after a run
that ended without error the generations are exactly `1`, ..., `min N (K+1)`: any list of
different generations that exist has at most `N` entries. The run ends without error when
the operating system lets no removal and no rename fail. -/
theorem run_keeps_contiguous_generations (env : Env α) (flags : Config) (fs : FS α)
    (fuel : Nat) (K : Nat) (rsyncPath : String) (hdry : flags.dry = false)
    (hlook : env.lookPath = some rsyncPath) (hsrc : env.isDirectory flags.sourcePath = true)
    (hdst : env.isDirectory flags.destPath = true) (hsync : SyncCreates env)
    (h1 : 1 ≤ flags.countGen) (hmax : flags.countGen ≤ maxInt) (hKmax : (K : Int) < maxInt)
    (hK : ∀ j : Int, fileExists fs (genPath (normalize flags) j) = true ↔ 1 ≤ j ∧ j ≤ K)
    (hfuel : fs.length < fuel) :
    ∃ r, run env fuel flags fs = some r ∧
      (∀ st, r = .ok st →
        (∀ j : Int, fileExists st.fs (genPath (normalize flags) j) = true
          ↔ 1 ≤ j ∧ j ≤ min flags.countGen ((K : Int) + 1)) ∧
        ∀ gens : List Int, gens.Nodup →
          (∀ j ∈ gens, fileExists st.fs (genPath (normalize flags) j) = true) →
          (gens.length : Int) ≤ flags.countGen) ∧
      ((∀ fs p, env.removeFails fs p = false) → (∀ fs p q, env.renameFails fs p q = false) →
        ∃ st, r = .ok st) := by
  obtain ⟨r0, hrot, _, hok, hsucc⟩ := rotate_spec env (normalize flags)
    { fs := fs, log := [], ops := [] } fuel hdry h1 hmax hfuel
  cases r0 with
  | error e =>
    refine ⟨.error e.1, ?_, ?_, ?_⟩
    · unfold run checkRsync checkPath
      simp only [hlook, hsrc, hdst, Bool.not_true, Bool.false_eq_true, if_false, hrot]
    · intro st h; simp at h
    · intro hrm hrn
      obtain ⟨st3, h3⟩ := hsucc hrm hrn
      simp at h3
  | ok st0 =>
    obtain ⟨b1, st1, b2, st2, hev, hst0, _, hpost⟩ := hok st0 rfl
    have e1 := evict_contiguous env (normalize flags) _ st1 fuel K b1 hdry h1 hmax hKmax hK hev
    have e2 := shift_contiguous (normalize flags) st1.fs st2.fs K h1 e1 hpost
    obtain ⟨fs3, hs, hfs3⟩ := hsync rsyncPath (buildArgs (normalize flags) st0.fs) st0.fs
    obtain ⟨st3, hinv, hst3⟩ := invoke_real env (normalize flags) rsyncPath st0 fs3 hdry hs
    have hall : ∀ j : Int, fileExists st3.fs (genPath (normalize flags) j) = true
        ↔ 1 ≤ j ∧ j ≤ min flags.countGen ((K : Int) + 1) := by
      intro j
      rw [hst3, hfs3, buildArgs_getLast, resolve_genPath, resolve_genPath, hst0, logBlankIf_fs,
        Bool.or_eq_true, e2, decide_eq_true_eq]
      have e : (normalize flags).countGen = flags.countGen := rfl
      constructor
      · rintro (h | h)
        · have := genPath_injective _ h
          omega
        · omega
      · intro h
        by_cases hj : j = 1
        · left; rw [hj]
        · right; omega
    refine ⟨.ok st3, ?_, ?_, fun _ _ => ⟨st3, rfl⟩⟩
    · unfold run checkRsync checkPath
      simp only [hlook, hsrc, hdst, Bool.not_true, Bool.false_eq_true, if_false, hrot, hinv]
    · intro st h
      simp only [Except.ok.injEq] at h
      subst h
      refine ⟨hall, ?_⟩
      intro gens hnd hex
      have := nodup_length_le gens flags.countGen hnd (fun j hj => by
        have := (hall j).1 (hex j hj)
        omega)
      omega

/-! ## Sample runs -/

theorem fileExists_genRoot {α : Type} (cfg : Config) (gens : List (Int × α)) (j : Int) :
    fileExists (genRoot cfg gens) (genPath cfg j) = true ↔ j ∈ gens.map Prod.fst := by
  unfold fileExists genRoot
  rw [resolve_genPath]
  induction gens with
  | nil => simp
  | cons g gs ih =>
    simp only [List.map_cons, List.any_cons, Bool.or_eq_true, beq_iff_eq, List.mem_cons, ih]
    constructor
    · rintro (h | h)
      · exact Or.inl (genPath_injective cfg h).symm
      · exact Or.inr h
    · rintro (h | h)
      · exact Or.inl (by rw [h])
      · exact Or.inr h

theorem syncCreates_sampleEnv : SyncCreates sampleEnv := by
  intro p args fs
  refine ⟨_, rfl, fun q => ?_⟩
  show fileExists ((resolve (args.getLast?.getD ""), 0) :: removeAll fs (args.getLast?.getD "")) q
    = _
  have h : ∀ (k : String) (v : Nat) (l : FS Nat),
      fileExists ((k, v) :: l) q = (decide (resolve q = k) || fileExists l q) := by
    intro k v l
    unfold fileExists
    simp only [List.any_cons]
    congr 1
    rw [Bool.eq_iff_iff, beq_iff_eq, decide_eq_true_eq]
    exact eq_comm
  rw [h, fileExists_removeAll]
  by_cases hq : resolve q = resolve (args.getLast?.getD "")
  · simp [hq]
  · simp [hq]

theorem eviction_removes_up_to_first_gap_witness :
    ∃ x : Bool × State Nat,
      evictLoop sampleEnv (sampleCfg 2 false) 5 2 false { fs := sampleRoot, log := [], ops := [] }
        = some (.ok x) ∧
      x.1 = true ∧
      x.2.ops = [Action.remove "/mnt/backup/data-Backup-002",
        Action.remove "/mnt/backup/data-Backup-003",
        Action.remove "/mnt/backup/data-Backup-004"] ∧
      lookup x.2.fs "/mnt/backup/data-Backup-001" = some 11 := by
  obtain ⟨r, hev, hprop, hsucc⟩ := eviction_removes_up_to_first_gap sampleEnv
    (sampleCfg 2 false) { fs := sampleRoot, log := [], ops := [] } 5 5 rfl (by decide)
    (by decide) (by decide)
    (fun j h1 h2 => by
      have h1b : (2 : Int) ≤ j := h1
      interval_cases j <;> rfl)
    (by decide) (by decide)
  obtain ⟨x, hx⟩ := hsucc (fun _ _ => rfl)
  obtain ⟨hb, hops, _, hframe⟩ := hprop x hx
  refine ⟨x, by rw [← hx]; exact hev, hb.trans (by decide), hops.trans (by decide), ?_⟩
  exact (hframe "/mnt/backup/data-Backup-001" (fun j h1 h2 => by
    have h1b : (2 : Int) ≤ j := h1
    interval_cases j <;> decide)).trans (by decide)

/-- C5 fails when a removal fails and when the index overflows. With the generations 1 to 4,
a retention count of 2 and a generation 3 that cannot be removed, the pass removes generation
2 and stops with the error: generations 3 and 4 stay. With a retention count of the largest
`int` and directories at the largest and the smallest `int`, the pass removes both, the second
one at an index below the count. -/
theorem eviction_stops_at_failure_and_wraps :
    (errState (evictLoop (sampleEnvKeeping "/mnt/backup/data-Backup-003") (sampleCfg 2 false) 5
        2 false { fs := sampleRoot, log := [], ops := [] })).map
          (fun st => (st.ops, st.fs.map Prod.fst))
      = some ([Action.remove "/mnt/backup/data-Backup-002"],
          ["/mnt/backup/data-Backup-001", "/mnt/backup/data-Backup-003",
            "/mnt/backup/data-Backup-004"]) ∧
    (okPass (evictLoop sampleEnv (sampleCfg maxInt false) 5 maxInt false
        { fs := wrapRoot, log := [], ops := [] })).map (fun st => (st.ops, st.fs.map Prod.fst))
      = some ([Action.remove "/mnt/backup/data-Backup-9223372036854775807",
            Action.remove "/mnt/backup/data-Backup--9223372036854775808"],
          ["/mnt/backup/data-Backup-005"]) ∧
    -maxInt - 1 < maxInt := by
  decide

theorem eviction_idempotent_witness :
    ∃ (b1 : Bool) (st1 : State Nat),
      evictLoop sampleEnv (sampleCfg 2 false) 5 2 false { fs := sampleRoot, log := [], ops := [] }
        = some (.ok (b1, st1)) ∧
      evictLoop sampleEnv (sampleCfg 2 false) 5 2 false st1 = some (.ok (false, st1)) := by
  obtain ⟨r, hev, hprop, hsucc⟩ := eviction_idempotent sampleEnv (sampleCfg 2 false)
    { fs := sampleRoot, log := [], ops := [] } 5 rfl (by decide)
  obtain ⟨b1, st1, hx⟩ := hsucc (fun _ _ => rfl)
  exact ⟨b1, st1, by rw [← hx]; exact hev, hprop b1 st1 hx⟩

theorem rotation_frees_first_slot_witness :
    ∃ st2 : State Nat,
      rotate sampleEnv (sampleCfg 2 false) 5 { fs := sampleRoot, log := [], ops := [] }
        = some (.ok st2) ∧
      fileExists st2.fs (genPath (sampleCfg 2 false) 1) = false := by
  obtain ⟨r, hrot, hprop, hsucc⟩ := rotation_frees_first_slot sampleEnv (sampleCfg 2 false)
    { fs := sampleRoot, log := [], ops := [] } 5 rfl (by decide) (by decide) (by decide)
  obtain ⟨st2, hx⟩ := hsucc (fun _ _ => rfl) (fun _ _ _ => rfl)
  exact ⟨st2, by rw [← hx]; exact hrot, hprop st2 hx⟩

/-- C6 fails for a retention count of zero: the eviction pass starts at index 0, finds
nothing there and stops, the shift pass has nothing to do, and generation 1 is still there. -/
theorem rotation_keeps_first_slot_at_zero :
    (0 : Int) ≤ (sampleCfg 0 false).countGen ∧
      (okState (rotate sampleEnv (sampleCfg 0 false) 5
        { fs := genRoot (sampleCfg 0 false) [(1, 11)], log := [], ops := [] })).map
          (fun st => fileExists st.fs (genPath (sampleCfg 0 false) 1)) = some true := by
  decide

theorem rotation_shifts_generations_witness :
    ∃ st2 : State Nat,
      rotate sampleEnv (sampleCfg 3 false) 5 { fs := sampleRoot, log := [], ops := [] }
        = some (.ok st2) ∧
      lookup st2.fs (genPath (sampleCfg 3 false) 2) = some 11 ∧
      lookup st2.fs (genPath (sampleCfg 3 false) 3) = some 12 := by
  obtain ⟨r, hrot, _, hprop, hsucc⟩ := rotation_shifts_generations sampleEnv
    (sampleCfg 3 false) { fs := sampleRoot, log := [], ops := [] } 5 rfl (by decide)
    (by decide) (by decide) (by decide)
  obtain ⟨st2, hx⟩ := hsucc (fun _ _ => rfl) (fun _ _ _ => rfl)
  exact ⟨st2, by rw [← hx]; exact hrot,
    (hprop st2 hx 1 (by decide) (by decide)).trans (by decide),
    (hprop st2 hx 2 (by decide) (by decide)).trans (by decide)⟩

/-- C2 fails at index 0: with a retention count of 2 a directory of generation 0 is below the
count and exists, but the shift pass stops at index 1; after the rotation generation 0 is
where it was and there is no generation 1. -/
theorem rotation_leaves_generation_zero :
    (0 : Int) < (sampleCfg 2 false).countGen ∧
      lookup (genRoot (sampleCfg 2 false) [((0 : Int), (7 : Nat))])
        (genPath (sampleCfg 2 false) 0) = some 7 ∧
      (okState (rotate sampleEnv (sampleCfg 2 false) 5
        { fs := genRoot (sampleCfg 2 false) [((0 : Int), (7 : Nat))], log := [],
          ops := [] })).map
          (fun st => (lookup st.fs (genPath (sampleCfg 2 false) (0 + 1)),
            lookup st.fs (genPath (sampleCfg 2 false) 0))) = some (none, some 7) := by
  decide

theorem dry_run_changes_nothing_witness :
    ∃ r, run sampleEnv 5 (sampleFlags 2 true) sampleRoot = some r ∧
      (∀ st, r = .ok st → st.fs = sampleRoot ∧ st.ops = []) ∧
      ∃ st, r = .ok st :=
  have h := dry_run_changes_nothing sampleEnv (sampleFlags 2 true) sampleRoot 5 rfl (by decide)
    (by decide) (by decide) (by decide)
  h.elim fun r hr => ⟨r, hr.1, hr.2.1, hr.2.2 rfl rfl rfl⟩

theorem run_keeps_contiguous_generations_witness :
    ∃ st, run sampleEnv 5 (sampleFlags 3 false)
        (genRoot (sampleCfg 3 false) [(1, 11), (2, 12)]) = some (.ok st) ∧
      (∀ j : Int, fileExists st.fs (genPath (normalize (sampleFlags 3 false)) j) = true
        ↔ 1 ≤ j ∧ j ≤ min 3 (((2 : Nat) : Int) + 1)) ∧
      ∀ gens : List Int, gens.Nodup →
        (∀ j ∈ gens, fileExists st.fs (genPath (normalize (sampleFlags 3 false)) j) = true) →
        (gens.length : Int) ≤ 3 := by
  obtain ⟨r, hrun, hprop, hsucc⟩ := run_keeps_contiguous_generations sampleEnv
    (sampleFlags 3 false) (genRoot (sampleCfg 3 false) [(1, 11), (2, 12)]) 5 2
    "/usr/bin/rsync" rfl rfl rfl rfl syncCreates_sampleEnv (by decide) (by decide) (by decide)
    (fun j => by
      have e : normalize (sampleFlags 3 false) = sampleCfg 3 false := by decide
      rw [e, fileExists_genRoot]
      simp only [List.map_cons, List.map_nil, List.mem_cons, List.not_mem_nil, or_false]
      omega)
    (by decide)
  obtain ⟨st, hx⟩ := hsucc (fun _ _ => rfl) (fun _ _ _ => rfl)
  exact ⟨st, by rw [← hx]; exact hrun, hprop st hx⟩

/-- C1 fails for a retention count of zero, where the run leaves one generation, and for a
Backup Root with a gap: with a retention count of 3 and the generations 1 and 5, the run
leaves the generations 1, 2 and 5. -/
theorem run_breaks_bound_and_contiguity :
    (okState (run sampleEnv 5 (sampleFlags 0 false) [])).map
        (fun st => st.fs.map Prod.fst) = some ["/mnt/backup/data-Backup-001"] ∧
      (okState (run sampleEnv 5 (sampleFlags 3 false)
        (genRoot (sampleCfg 3 false) [(1, 11), (5, 15)]))).map (fun st => st.fs.map Prod.fst)
        = some ["/mnt/backup/data-Backup-001", "/mnt/backup/data-Backup-002",
            "/mnt/backup/data-Backup-005"] := by
  decide

/-- C7 fails where the rotation changes whether generation 2 exists: with a retention count
of 3 and generation 1 alone, the dry run announces an rsync call without link reference,
and the real run calls rsync with `--link-dest`. -/
theorem dry_run_announces_other_arguments :
    (okState (run sampleEnv 5 (sampleFlags 3 true)
        (genRoot (sampleCfg 3 false) [(1, 11)]))).map (fun st => loggedActions st.log)
      = some [Action.move "/mnt/backup/data-Backup-001" "/mnt/backup/data-Backup-002",
          Action.exec "/usr/bin/rsync" ["--archive", "--verbose", "--safe-links", "--delete",
            "/home/data/", "/mnt/backup/data-Backup-001"]] ∧
    (okState (run sampleEnv 5 (sampleFlags 3 false)
        (genRoot (sampleCfg 3 false) [(1, 11)]))).map (fun st => st.ops)
      = some [Action.move "/mnt/backup/data-Backup-001" "/mnt/backup/data-Backup-002",
          Action.exec "/usr/bin/rsync" ["--archive", "--verbose", "--safe-links", "--delete",
            "--link-dest=/mnt/backup/data-Backup-002/", "/home/data/",
            "/mnt/backup/data-Backup-001"]] := by
  decide

end properties

end RsyncBackup
